import Mathlib

/-!
Verification of the librarian crate mirror against its specification.

The development shallowly embeds the two core components of the repository:

* `vault` — deterministic addressing (`crate_version_path`) and the
  manifest-discovery walk (`top_level_manifests`, `iter_crate_versions`);
* `librarian::corpus` — the `populate` protocol that stages a fetched and
  extracted artifact and moves it into place.

Rust strings are embedded as lists of bytes (`ByteStr`), filesystem paths as
lists of path components (`Path`), and the filesystem itself as an
association list from paths to entry kinds, where lookup takes the first
match so that consing a binding onto the front overrides older bindings.
Directory trees scanned by the walk are embedded as a first-child and
next-sibling chain (`FTree`), which keeps every function structurally
recursive and executable.  Network fetch and archive extraction are external
collaborators; they enter the model as oracle parameters (`fetchOk`,
`archive`).
-/

namespace Librarian

/-- Rust `&str` / `String`, viewed as its UTF-8 bytes. -/
abbrev ByteStr := List Nat

/-- Filesystem path, as a list of path components relative to an abstract
filesystem root. `PathBuf::join` with a single component appends one
component. -/
abbrev Path := List ByteStr

/-! ## Vault addressing: `vault/src/error.rs` and `Vault::crate_version_path` -/

/-- Embedding of `vault::Error` (`vault/src/error.rs`).  The `std::io::Error`
and `toml::de::Error` payloads carry no information the claims need and are
dropped. -/
inductive VaultError where
  | invalidCrateName (name : ByteStr)
  | invalidCrateVersion (version : ByteStr)
  | manifestAncestry (path : Path)
  | manifestOpen (path : Path)
  | manifestParse (path : Path)
  | manifestRead (path : Path)
  | walkDir
deriving DecidableEq

deriving instance DecidableEq for Except

/-- Rust `str::is_char_boundary`: index 0 and the total length are always
boundaries; an interior index is a boundary when the byte there is not a
UTF-8 continuation byte (`0x80..=0xBF`); an index past the end is not a
boundary. -/
def isCharBoundary (s : ByteStr) (i : Nat) : Bool :=
  decide (i = 0) || decide (i = s.length) ||
    (match s.get? i with
     | some b => decide (b < 128) || decide (192 ≤ b)
     | none => false)

/-- Rust `s.get(0..k)` on a string slice: `Some` of the first `k` bytes when
`k` is in range and falls on a character boundary, `None` otherwise. -/
def strGetTo (s : ByteStr) (k : Nat) : Option ByteStr :=
  if k ≤ s.length && isCharBoundary s k then some (s.take k) else none

/-- Embedding of `Vault::crate_version_path` (`vault/src/lib.rs`).  The vault
root directory is passed as `root`.  The code joins `crate_name.get(0..1)`
(erroring with `InvalidCrateName` when the slice is unavailable), then
`crate_name.get(0..2)` when that slice exists, then the crate name itself,
and finally the version after rejecting an empty version. -/
def crate_version_path (root : Path) (crate_name version : ByteStr) :
    Except VaultError Path :=
  match strGetTo crate_name 1 with
  | none => Except.error (VaultError.invalidCrateName crate_name)
  | some one =>
    let path := root ++ [one]
    let path :=
      match strGetTo crate_name 2 with
      | some two => path ++ [two]
      | none => path
    let path := path ++ [crate_name]
    if version = [] then Except.error (VaultError.invalidCrateVersion version)
    else Except.ok (path ++ [version])

/-! ## Filesystem model shared by the corpus component -/

/-- Kind of a filesystem object, as distinguished by `std::fs::Metadata`. -/
inductive Entry where
  | file
  | dir
deriving DecidableEq

/-- Filesystem state: an association list from paths to entry kinds.  Lookup
takes the first match, so consing a binding onto the front overrides older
bindings for the same path. -/
abbrev Fs := List (Path × Entry)

/-- First-match lookup; `none` plays the role of `ErrorKind::NotFound`. -/
def lookupFs : Fs → Path → Option Entry
  | [], _ => none
  | e :: rest, q => if e.1 = q then some e.2 else lookupFs rest q

/-- Tests whether `d` is a leading segment of `q`, that is, whether the path
`q` is `d` itself or lies beneath the directory `d`. -/
def leadB (d q : Path) : Bool := decide (q.take d.length = d)

/-- Tests whether `q` lies strictly beneath the directory `d`. -/
def strictLeadB (d q : Path) : Bool := leadB d q && decide (d.length < q.length)

/-- Creates or overwrites one filesystem object. -/
def setFs (fs : Fs) (p : Path) (v : Entry) : Fs := (p, v) :: fs

/-- Recursive removal of a path and everything beneath it; used for the
cleanup a `tempfile::TempDir` performs when dropped. -/
def removeUnder (fs : Fs) (d : Path) : Fs := fs.filter (fun e => !leadB d e.1)

/-! ## Corpus: `librarian/src/corpus.rs` -/

/-- Embedding of `corpus::Error`.  `Io` payloads are dropped; `Reqwest`
covers transport failures; `Vault` wraps addressing errors. -/
inductive CorpusError where
  | ioErr
  | notADirectory (path : Path)
  | reqwestErr
  | vaultErr (e : VaultError)
deriving DecidableEq

/-- Directory bindings for every non-empty leading segment of `p`, the
entries `create_dir_all` establishes. -/
def dirsFor (p : Path) : Fs :=
  (List.range p.length).map (fun k => (p.take (k + 1), Entry.dir))

/-- Embedding of `std::fs::create_dir_all`: fails when some (possibly
improper) leading segment of `p` already exists as a regular file, and
otherwise creates every missing directory along `p`, including `p` itself. -/
def createDirAll (fs : Fs) (p : Path) : Except CorpusError Fs :=
  if (List.range (p.length + 1)).any
      (fun k => decide (lookupFs fs (p.take k) = some Entry.file)) then
    Except.error CorpusError.ioErr
  else
    Except.ok (dirsFor p ++ fs)

/-- Entries beneath `src`, rebased onto `dst`; helper for `renameFs`. -/
def remapUnder (fs : Fs) (src dst : Path) : Fs :=
  fs.filterMap (fun e =>
    if leadB src e.1 then some (dst ++ e.1.drop src.length, e.2) else none)

/-- Precondition of `std::fs::rename` on the destination: an absent
destination is fine; an existing destination may only be replaced by a
source of the same kind, and a destination directory only when nothing lies
beneath it. -/
def renameDstOk (fs : Fs) (dst : Path) (sk : Entry) : Bool :=
  match lookupFs fs dst with
  | none => true
  | some Entry.dir =>
    decide (sk = Entry.dir) && !(fs.any (fun e => strictLeadB dst e.1))
  | some Entry.file => decide (sk = Entry.file)

/-- Embedding of `std::fs::rename`: the source must exist and the
destination must satisfy `renameDstOk`.  On success the source subtree is
rebased onto the destination. -/
def renameFs (fs : Fs) (src dst : Path) : Except CorpusError Fs :=
  match lookupFs fs src with
  | none => Except.error CorpusError.ioErr
  | some sk =>
    if renameDstOk fs dst sk then
      Except.ok
        (remapUnder fs src dst ++
          fs.filter (fun e => !leadB src e.1 && !leadB dst e.1))
    else Except.error CorpusError.ioErr

/-- Embedding of `tar::Archive::unpack` into the directory `base` with
`set_overwrite(true)`: every archive entry (a path relative to `base`,
together with its kind) is written beneath `base`; reversing before
prepending makes later archive entries shadow earlier ones. -/
def extractArchive (fs : Fs) (base : Path) (ar : Fs) : Fs :=
  (ar.reverse.map (fun e => (base ++ e.1, e.2))) ++ fs

/-- Result of one `Corpus::populate` call: the returned value, the resulting
filesystem, and whether the HTTP fetch and the archive extraction were
reached. -/
structure PopOutcome where
  result : Except CorpusError Path
  fs : Fs
  fetched : Bool
  extracted : Bool
deriving DecidableEq

/-- Embedding of `Corpus::populate` (`librarian/src/corpus.rs`).

The call order follows the source exactly: `tempdir_in(&self.vault)` creates
a fresh temporary directory named `tmp` under the vault root; the target
path is resolved with `crate_version_path`; `std::fs::metadata` inspects the
target (a directory returns it immediately, a file fails with
`NotADirectory`, and `NotFound` continues); `std::fs::create_dir_all(&path)`
creates the target directory itself; the crate is fetched (the oracle
`fetchOk` decides whether `send()` succeeds) and unpacked into the temporary
directory (the oracle `archive` is `none` when decoding or unpacking fails,
and otherwise lists the unpacked entries); finally the unpacked
`{name}-{num}` subtree is renamed onto the target.  `fs::canonicalize` is
the identity here because the model has no symbolic links.  On every exit
the temporary directory is dropped, which removes it recursively. -/
def populate (fs0 : Fs) (root : Path) (tmp : ByteStr) (fetchOk : Bool)
    (archive : Option Fs) (name num : ByteStr) : PopOutcome :=
  let tempPath := root ++ [tmp]
  let fs1 := setFs fs0 tempPath Entry.dir
  match crate_version_path root name num with
  | Except.error e =>
    ⟨Except.error (CorpusError.vaultErr e), removeUnder fs1 tempPath, false, false⟩
  | Except.ok path =>
    match lookupFs fs1 path with
    | some Entry.dir => ⟨Except.ok path, removeUnder fs1 tempPath, false, false⟩
    | some Entry.file =>
      ⟨Except.error (CorpusError.notADirectory path), removeUnder fs1 tempPath,
        false, false⟩
    | none =>
      match createDirAll fs1 path with
      | Except.error e => ⟨Except.error e, removeUnder fs1 tempPath, false, false⟩
      | Except.ok fs2 =>
        if fetchOk then
          match archive with
          | none =>
            ⟨Except.error CorpusError.ioErr, removeUnder fs2 tempPath, true, true⟩
          | some ar =>
            let fs3 := extractArchive fs2 tempPath ar
            let src := tempPath ++ [name ++ [45] ++ num]
            match renameFs fs3 src path with
            | Except.error e =>
              ⟨Except.error e, removeUnder fs3 tempPath, true, true⟩
            | Except.ok fs4 =>
              ⟨Except.ok path, removeUnder fs4 tempPath, true, true⟩
        else
          ⟨Except.error CorpusError.reqwestErr, removeUnder fs2 tempPath, true, false⟩

/-! ## Manifest discovery: `vault/src/walk.rs` and `Vault::iter_crate_versions`

A scanned directory tree is embedded as a first-child and next-sibling
chain: a directory's entry list is either `dnil` (no further entries) or
`dcons name entry rest`.  A `file` node carries the outcome that
`Manifest::parse_file` would produce for it (`Except.ok (name, version)` or
the open, read or parse error), and `other` stands for the entries whose
file type is neither a regular file nor a directory. -/

/-- Outcome of `Manifest::parse_file` on one file: the `package.name` and
`package.version` strings, or the error. -/
abbrev Parsed := Except VaultError (ByteStr × ByteStr)

/-- Directory tree node; a directory is a `dnil`-terminated `dcons` chain of
named entries. -/
inductive FTree where
  | file (parsed : Parsed)
  | other
  | dnil
  | dcons (name : ByteStr) (entry : FTree) (rest : FTree)
deriving DecidableEq

/-- Structural size of a tree; drives the recursion budget of the walk. -/
def FTree.size : FTree → Nat
  | file _ => 1
  | other => 1
  | dnil => 1
  | dcons _ t rest => 1 + t.size + rest.size

/-- Tests whether a node is a directory (`DirEntry::file_type().is_dir()`). -/
def isDirNode : FTree → Bool
  | FTree.dnil => true
  | FTree.dcons _ _ _ => true
  | _ => false

/-- The bytes of `"Cargo.toml"`. -/
def cargoTomlTitle : ByteStr := [67, 97, 114, 103, 111, 46, 116, 111, 109, 108]

/-- The bytes of `"cargo.toml"`. -/
def cargoTomlLower : ByteStr := [99, 97, 114, 103, 111, 46, 116, 111, 109, 108]

/-- Embedding of `is_manifest` (`vault/src/walk.rs`): the entry is a regular
file and its file name is byte-for-byte `Cargo.toml` or `cargo.toml`. -/
def is_manifest (name : ByteStr) (t : FTree) : Bool :=
  (match t with | FTree.file _ => true | _ => false) &&
    (decide (name = cargoTomlTitle) || decide (name = cargoTomlLower))

/-- Byte-wise lexicographic comparison; embeds `OsStr::cmp` as used by the
walk's tie-break between non-manifest entries. -/
def lexLe : ByteStr → ByteStr → Bool
  | [], _ => true
  | _ :: _, [] => false
  | a :: as, b :: bs => decide (a < b) || (decide (a = b) && lexLe as bs)

/-- Keeps the chain entries satisfying `p`. -/
def filterChain (p : ByteStr → FTree → Bool) : FTree → FTree
  | FTree.dcons n t rest =>
    if p n t then FTree.dcons n t (filterChain p rest) else filterChain p rest
  | _ => FTree.dnil

/-- Concatenation of two entry chains. -/
def appendChain : FTree → FTree → FTree
  | FTree.dcons n t rest, b => FTree.dcons n t (appendChain rest b)
  | _, b => b

/-- Insertion step of the stable sort of non-manifest entries. -/
def insertChain (n : ByteStr) (t : FTree) : FTree → FTree
  | FTree.dcons m u rest =>
    if lexLe n m then FTree.dcons n t (FTree.dcons m u rest)
    else FTree.dcons m u (insertChain n t rest)
  | _ => FTree.dcons n t FTree.dnil

/-- Insertion sort of an entry chain by name. -/
def sortChain : FTree → FTree
  | FTree.dcons n t rest => insertChain n t (sortChain rest)
  | _ => FTree.dnil

/-- Embedding of the walk's `sort_by` comparator: entries for which
`is_manifest` holds sort before every other entry (keeping their encounter
order), and the remaining entries are ordered lexically by file name. -/
def sortEntries (c : FTree) : FTree :=
  appendChain (filterChain is_manifest c)
    (sortChain (filterChain (fun n t => !is_manifest n t) c))

/-- Embedding of `PrefixSet::contains`: some ancestor-or-self of `q`
(including the scan root itself, `q.take 0`) is already claimed.  Mirrors
`path.ancestors().any(|path| set.contains(path))`. -/
def seenContains (seen : List Path) (q : Path) : Bool :=
  (List.range (q.length + 1)).any (fun k => seen.any (fun s => decide (s = q.take k)))

/-- One fuel-indexed step of the filtered depth-first walk that
`top_level_manifests` (`vault/src/walk.rs`) performs over the sorted
children of one directory, at path `p`, with the claimed set `seen`.

Per entry, exactly as in `filter_entry` composed with the trailing
`filter_map`: a manifest records its parent `p` as claimed and is emitted
together with its parse outcome; a directory is descended into (its children
sorted) unless one of its ancestors is claimed; anything else is skipped.
The claimed set threads left to right through the sorted entries, so a
manifest claims `p` before any sibling directory of the same level is
considered.  The fuel only serves termination: `walkScan` supplies enough
for the walk never to run out. -/
def walkF : Nat → Path → List Path → FTree → (List (Path × Parsed)) × List Path
  | 0, _, seen, _ => ([], seen)
  | _ + 1, _, seen, FTree.dnil => ([], seen)
  | _ + 1, _, seen, FTree.file _ => ([], seen)
  | _ + 1, _, seen, FTree.other => ([], seen)
  | fuel + 1, p, seen, FTree.dcons n t rest =>
    let q := p ++ [n]
    let r1 : (List (Path × Parsed)) × List Path :=
      if is_manifest n t then
        ((match t with | FTree.file c => [(q, c)] | _ => []), p :: seen)
      else if isDirNode t then
        if seenContains seen q then ([], seen)
        else walkF fuel q seen (sortEntries t)
      else ([], seen)
    let r2 := walkF fuel p r1.2 rest
    (r1.1 ++ r2.1, r2.2)

/-- The walk over one directory's entry chain with just enough fuel; every
walk of the scan is an instance of this. -/
def walkC (p : Path) (seen : List Path) (c : FTree) :
    (List (Path × Parsed)) × List Path :=
  walkF (c.size + 1) p seen c

/-- The whole scan from the root directory `rootPath` whose entry chain is
`c`: emitted manifests together with the final claimed set. -/
def walkScan (rootPath : Path) (c : FTree) : (List (Path × Parsed)) × List Path :=
  walkC rootPath [] (sortEntries c)

/-- Tests whether a node is a `dnil`-terminated entry chain spine. -/
def isChain : FTree → Bool
  | FTree.dnil => true
  | FTree.dcons _ _ rest => isChain rest
  | _ => false

/-- Tests whether every entry of a chain is a manifest. -/
def allManifest : FTree → Bool
  | FTree.dcons n t rest => is_manifest n t && allManifest rest
  | _ => true

/-- Tests whether `(n, t)` is an entry of the chain. -/
def elemOf (n : ByteStr) (t : FTree) : FTree → Bool
  | FTree.dcons m u rest => (decide (m = n) && decide (u = t)) || elemOf n t rest
  | _ => false

/-- Embedding of `top_level_manifests` (`vault/src/walk.rs`): the manifest
paths the scan emits, each with the parse outcome `Manifest::parse_file`
yields for it. -/
def top_level_manifests (rootPath : Path) (c : FTree) : List (Path × Parsed) :=
  (walkScan rootPath c).1

/-- Embedding of `CrateVersion` (`vault/src/lib.rs`). -/
structure CrateVersion where
  crate_name : ByteStr
  version : ByteStr
  path : Path
deriving DecidableEq

/-- Embedding of `Vault::iter_crate_versions` (`vault/src/lib.rs`): each
walk item is mapped on its own through `Manifest::parse_file`, producing a
`CrateVersion` on success and that entry's error otherwise. -/
def iter_crate_versions (rootPath : Path) (c : FTree) :
    List (Except VaultError CrateVersion) :=
  (top_level_manifests rootPath c).map (fun e =>
    match e.2 with
    | Except.ok m => Except.ok ⟨m.1, m.2, e.1⟩
    | Except.error err => Except.error err)

/-- First entry named `n` of a chain, like a directory lookup by name. -/
def findEntry : FTree → ByteStr → Option FTree
  | FTree.dcons m t rest, n => if m = n then some t else findEntry rest n
  | _, _ => none

/-- Descends a chain along the relative path `rel`, through directories
only. -/
def dirAt : FTree → Path → Option FTree
  | c, [] => some c
  | c, n :: rel =>
    match findEntry c n with
    | some t => if isDirNode t then dirAt t rel else none
    | none => none

/-- Tests whether a directory's entry chain directly contains a manifest. -/
def hasManifestChild : FTree → Bool
  | FTree.dcons n t rest => is_manifest n t || hasManifestChild rest
  | _ => false

/-- Tests whether a chain has an entry named `n`. -/
def chainHasName : FTree → ByteStr → Bool
  | FTree.dcons m _ rest, n => decide (m = n) || chainHasName rest n
  | _, _ => false

/-- Well-formedness of a directory entry chain, as every chain a real
filesystem hands to `walkdir` satisfies it: the chain is `dnil`-terminated,
sibling names are distinct, and every subdirectory is well-formed in
turn. -/
def wfChain : FTree → Bool
  | FTree.dnil => true
  | FTree.dcons n t rest =>
    !(chainHasName rest n) &&
      (match t with
       | FTree.file _ => true
       | FTree.other => true
       | td => wfChain td) &&
      wfChain rest
  | _ => false

/-- Parse outcome of the manifest the walk's own test writes: package `foo`
version `0.0.0`. -/
def fooManifest : Parsed := Except.ok ([102, 111, 111], [48, 46, 48, 46, 48])

/-- The tree of the walk's test `test_top_level_manifests`: manifests at
`a/b`, `b`, `b/c/d` and `c/d`. -/
def exampleTree : FTree :=
  FTree.dcons [97]
    (FTree.dcons [98]
      (FTree.dcons cargoTomlTitle (FTree.file fooManifest) FTree.dnil)
      FTree.dnil)
    (FTree.dcons [98]
      (FTree.dcons cargoTomlTitle (FTree.file fooManifest)
        (FTree.dcons [99]
          (FTree.dcons [100]
            (FTree.dcons cargoTomlTitle (FTree.file fooManifest) FTree.dnil)
            FTree.dnil)
          FTree.dnil))
      (FTree.dcons [99]
        (FTree.dcons [100]
          (FTree.dcons cargoTomlTitle (FTree.file fooManifest) FTree.dnil)
          FTree.dnil)
        FTree.dnil))

/-- A tree whose manifest at `b` fails to parse while a further manifest
lies nested beneath `b` at `b/c/d`. -/
def badTree : FTree :=
  FTree.dcons [98]
    (FTree.dcons cargoTomlTitle
      (FTree.file (Except.error (VaultError.manifestParse [[98], cargoTomlTitle])))
      (FTree.dcons [99]
        (FTree.dcons [100]
          (FTree.dcons cargoTomlTitle (FTree.file fooManifest) FTree.dnil)
          FTree.dnil)
        FTree.dnil))
    FTree.dnil

/-! ## Claims about the addressing scheme: C1, C7, C10 -/

/-- Claim C1, counterexample: the spec predicts the crates.io index bucket
layout, for a name of length 1 the path `1/n/v`; at name `"a"` and version
`"1"` with the store root at the filesystem root, `crate_version_path`
returns `a/a/1`, not `1/a/1`. -/
theorem crate_version_path_bucket_counterexample :
    crate_version_path [] [97] [49] = Except.ok [[97], [97], [49]] ∧
    crate_version_path [] [97] [49] ≠ Except.ok [[49], [97], [49]] := by
  decide

/-- Claim C1, amended: for every non-empty version, a name of byte length 1
is addressed at `n/n/v`, and a name of byte length at least 2 whose byte
offsets 1 and 2 are character boundaries is addressed at
`n[0:1]/n[0:2]/n/v`, relative to the store root — the same shape for
lengths 2, 3 and 4 or more. -/
theorem crate_version_path_layout (root : Path) (n v : ByteStr) (hv : v ≠ []) :
    (n.length = 1 → crate_version_path root n v = Except.ok (root ++ [n, n, v])) ∧
    (2 ≤ n.length → isCharBoundary n 1 = true → isCharBoundary n 2 = true →
      crate_version_path root n v = Except.ok (root ++ [n.take 1, n.take 2, n, v])) := by
  constructor
  · intro h1
    have hb : isCharBoundary n 1 = true := by simp [isCharBoundary, h1]
    have ht : n.take 1 = n := by
      rw [← h1]
      exact List.take_length n
    have hc : (1 ≤ n.length && isCharBoundary n 1) = true := by simp [hb, h1]
    have hget1 : strGetTo n 1 = some n := by simp [strGetTo, hc, ht]
    have hget2 : strGetTo n 2 = none := by
      simp [strGetTo, h1]
    simp [crate_version_path, hget1, hget2, hv]
  · intro h2 hb1 hb2
    have hc1 : (1 ≤ n.length && isCharBoundary n 1) = true := by
      simp [hb1]
      omega
    have hc2 : (2 ≤ n.length && isCharBoundary n 2) = true := by
      simp [hb2]
      omega
    have hget1 : strGetTo n 1 = some (n.take 1) := by simp [strGetTo, hc1]
    have hget2 : strGetTo n 2 = some (n.take 2) := by simp [strGetTo, hc2]
    simp [crate_version_path, hget1, hget2, hv]

/-- Witness for `crate_version_path_layout` at the name `"ab"` and the
version `"1"`. -/
theorem crate_version_path_layout_witness :
    ([49] : ByteStr) ≠ [] ∧
    crate_version_path [] [97, 98] [49] =
      Except.ok [[97], [97, 98], [97, 98], [49]] :=
  ⟨by decide,
    (crate_version_path_layout [] [97, 98] [49] (by decide)).2 (by decide)
      (by decide) (by decide)⟩

/-- Claim C7, counterexample: with both the name and the version empty, the
call fails with `InvalidCrateName`, not with the `InvalidCrateVersion` error
the claim promises for every name with an empty version. -/
theorem crate_version_path_empty_counterexample :
    crate_version_path [] [] [] = Except.error (VaultError.invalidCrateName []) ∧
    (Except.error (VaultError.invalidCrateName []) : Except VaultError Path) ≠
      Except.error (VaultError.invalidCrateVersion []) := by
  decide

/-- Claim C7, amended: an empty name yields `InvalidCrateName` for every
version; an empty version yields `InvalidCrateVersion` for every name that
passes name validation (its one-byte head slice exists), while a name that
fails validation yields `InvalidCrateName` even when the version is empty;
in no such case is a path returned. -/
theorem crate_version_path_validation (root : Path) (n v : ByteStr) :
    (n = [] → crate_version_path root n v = Except.error (VaultError.invalidCrateName n)) ∧
    (v = [] → (strGetTo n 1).isSome = true →
      crate_version_path root n v = Except.error (VaultError.invalidCrateVersion v)) ∧
    ((n = [] ∨ v = []) → ∀ p : Path, crate_version_path root n v ≠ Except.ok p) := by
  refine ⟨?_, ?_, ?_⟩
  · intro hn
    subst hn
    simp [crate_version_path, strGetTo]
  · intro hv hs
    match h : strGetTo n 1 with
    | none => simp [h] at hs
    | some one =>
      subst hv
      cases h2 : strGetTo n 2 <;> simp [crate_version_path, h, h2]
  · intro hor p
    rcases hor with hn | hv
    · subst hn
      simp [crate_version_path, strGetTo]
    · subst hv
      match h : strGetTo n 1 with
      | none => simp [crate_version_path, h]
      | some one => cases h2 : strGetTo n 2 <;> simp [crate_version_path, h, h2]

/-- Witness for `crate_version_path_validation`: the name `"a"` with an
empty version is rejected as `InvalidCrateVersion`. -/
theorem crate_version_path_validation_witness :
    crate_version_path [] [97] [] = Except.error (VaultError.invalidCrateVersion []) :=
  (crate_version_path_validation [] [97] []).2.1 rfl (by decide)

/-- Claim C10 (confirmed): when the byte at offset 1 of the name exists and
is a UTF-8 continuation byte — exactly the names whose first character
occupies more than one byte, so that the byte range `0..1` is not a valid
string slice — `crate_version_path` returns `InvalidCrateName` for every
version and every store root. -/
theorem crate_version_path_multibyte_head (root : Path) (n v : ByteStr) (b : Nat)
    (h1 : n.get? 1 = some b) (h2 : 128 ≤ b) (h3 : b < 192) :
    crate_version_path root n v = Except.error (VaultError.invalidCrateName n) := by
  have hlen : 1 < n.length := by
    have := List.get?_eq_some.mp h1
    exact this.1
  have hne : (1 : Nat) ≠ n.length := by omega
  have hb : isCharBoundary n 1 = false := by
    unfold isCharBoundary
    rw [h1]
    simp [hne]
    omega
  have hget : strGetTo n 1 = none := by
    simp [strGetTo, hb]
  simp [crate_version_path, hget]

/-- Witness for `crate_version_path_multibyte_head` at the name `"é"`
(bytes `[195, 169]`) and the version `"1"`. -/
theorem crate_version_path_multibyte_head_witness :
    ([195, 169] : ByteStr).get? 1 = some 169 ∧ 128 ≤ 169 ∧ 169 < 192 ∧
    crate_version_path [] [195, 169] [49] =
      Except.error (VaultError.invalidCrateName [195, 169]) :=
  ⟨by decide, by decide, by decide,
    crate_version_path_multibyte_head [] [195, 169] [49] 169 (by decide)
      (by decide) (by decide)⟩

/-! ## Toolkit: leading-segment facts and lookup calculations -/

theorem leadB_iff (d q : Path) : leadB d q = true ↔ q.take d.length = d := by
  simp [leadB]

theorem leadB_refl (p : Path) : leadB p p = true := by
  simp [leadB, List.take_length]

theorem leadB_append (p r : Path) : leadB p (p ++ r) = true := by
  simp [leadB, List.take_left]

theorem leadB_length {d q : Path} (h : leadB d q = true) : d.length ≤ q.length := by
  rw [leadB_iff] at h
  have := congrArg List.length h
  simp [List.length_take] at this
  omega

theorem eq_of_leadB_of_length {d q : Path} (h : leadB d q = true)
    (hl : q.length ≤ d.length) : d = q := by
  rw [leadB_iff] at h
  rw [← h, List.take_of_length_le hl]

theorem ne_of_not_leadB {d q : Path} (h : leadB d q = false) : d ≠ q := by
  intro he
  subst he
  simp [leadB_refl] at h

theorem leadB_of_take {d q : Path} {k : Nat} (h : leadB d (q.take k) = true) :
    leadB d q = true := by
  rw [leadB_iff] at h ⊢
  rw [List.take_take] at h
  have hlen := congrArg List.length h
  simp [List.length_take] at hlen
  have hdk : d.length ≤ k := by omega
  rw [Nat.min_eq_left hdk] at h
  exact h

theorem eq_append_drop_of_leadB {d q : Path} (h : leadB d q = true) :
    q = d ++ q.drop d.length := by
  rw [leadB_iff] at h
  conv_lhs => rw [← List.take_append_drop d.length q]
  rw [h]

theorem lookup_append (a b : Fs) (q : Path) :
    lookupFs (a ++ b) q =
      match lookupFs a q with
      | some v => some v
      | none => lookupFs b q := by
  induction a with
  | nil => simp [lookupFs]
  | cons e rest ih =>
    by_cases h : e.1 = q <;> simp [lookupFs, h, ih]

theorem lookup_filter_key (p : Path → Bool) (fs : Fs) (q : Path) :
    lookupFs (fs.filter (fun e => p e.1)) q =
      if p q = true then lookupFs fs q else none := by
  induction fs with
  | nil => by_cases h : p q <;> simp [lookupFs, h]
  | cons e rest ih =>
    by_cases hpe : p e.1
    · rw [List.filter_cons_of_pos (by simpa using hpe)]
      by_cases hq : e.1 = q
      · subst hq
        simp [lookupFs, hpe]
      · simp [lookupFs, hq, ih]
    · rw [List.filter_cons_of_neg (by simpa using hpe)]
      by_cases hq : e.1 = q
      · subst hq
        simp [lookupFs, ih, hpe]
      · simp [lookupFs, hq, ih]

theorem lookup_removeUnder (fs : Fs) (d q : Path) :
    lookupFs (removeUnder fs d) q =
      if leadB d q = true then none else lookupFs fs q := by
  have := lookup_filter_key (fun p => !leadB d p) fs q
  simp only [removeUnder]
  rw [this]
  by_cases h : leadB d q <;> simp [h]

theorem lookup_setFs (fs : Fs) (p : Path) (v : Entry) (q : Path) :
    lookupFs (setFs fs p v) q = if p = q then some v else lookupFs fs q := by
  simp [setFs, lookupFs]

/-! ## Claims about populate: C5, C6, then C2 and C3 -/

/-- Short-circuit behaviour of `populate`: when the resolved target path is
already a directory, the call returns it at once, without fetching or
extracting, and the filesystem is only touched by the temporary directory
that is created and dropped again. -/
theorem populate_short_circuit (fs0 : Fs) (root : Path) (tmp : ByteStr)
    (fetchOk : Bool) (archive : Option Fs) (name num : ByteStr) (path : Path)
    (hres : crate_version_path root name num = Except.ok path)
    (hdir : lookupFs fs0 path = some Entry.dir) :
    populate fs0 root tmp fetchOk archive name num =
      ⟨Except.ok path, removeUnder (setFs fs0 (root ++ [tmp]) Entry.dir)
        (root ++ [tmp]), false, false⟩ := by
  have hl : lookupFs (setFs fs0 (root ++ [tmp]) Entry.dir) path = some Entry.dir := by
    rw [lookup_setFs]
    by_cases h : (root ++ [tmp]) = path <;> simp [h, hdir]
  simp [populate, hres, hl]

/-- Claim C5 (confirmed): when the target path resolves and already exists
as a directory, `populate` returns that path and performs neither a network
fetch nor an extraction. -/
theorem populate_idempotent (fs0 : Fs) (root : Path) (tmp : ByteStr)
    (fetchOk : Bool) (archive : Option Fs) (name num : ByteStr) (path : Path)
    (hres : crate_version_path root name num = Except.ok path)
    (hdir : lookupFs fs0 path = some Entry.dir) :
    (populate fs0 root tmp fetchOk archive name num).result = Except.ok path ∧
    (populate fs0 root tmp fetchOk archive name num).fetched = false ∧
    (populate fs0 root tmp fetchOk archive name num).extracted = false := by
  rw [populate_short_circuit fs0 root tmp fetchOk archive name num path hres hdir]
  exact ⟨rfl, rfl, rfl⟩

/-- Witness for `populate_idempotent`: a vault whose target directory for
crate `"ab"` version `"1"` already exists. -/
theorem populate_idempotent_witness :
    (populate [([[114], [97], [97, 98], [97, 98], [49]], Entry.dir)] [[114]]
      [116] true none [97, 98] [49]).result =
        Except.ok [[114], [97], [97, 98], [97, 98], [49]] :=
  (populate_idempotent [([[114], [97], [97, 98], [97, 98], [49]], Entry.dir)]
    [[114]] [116] true none [97, 98] [49] [[114], [97], [97, 98], [97, 98], [49]]
    (by decide) (by decide)).1

/-- Claim C6 (confirmed): when the target path exists but is a regular file,
`populate` fails with `NotADirectory` for that path, performs no fetch, and
leaves the offending file in place. -/
theorem populate_conflict (fs0 : Fs) (root : Path) (tmp : ByteStr)
    (fetchOk : Bool) (archive : Option Fs) (name num : ByteStr) (path : Path)
    (hres : crate_version_path root name num = Except.ok path)
    (hfile : lookupFs fs0 path = some Entry.file)
    (htl : leadB (root ++ [tmp]) path = false) :
    (populate fs0 root tmp fetchOk archive name num).result =
      Except.error (CorpusError.notADirectory path) ∧
    (populate fs0 root tmp fetchOk archive name num).fetched = false ∧
    lookupFs (populate fs0 root tmp fetchOk archive name num).fs path =
      some Entry.file := by
  have hne : (root ++ [tmp]) ≠ path := ne_of_not_leadB htl
  have hl : lookupFs (setFs fs0 (root ++ [tmp]) Entry.dir) path = some Entry.file := by
    rw [lookup_setFs]
    simp [hne, hfile]
  have hout : populate fs0 root tmp fetchOk archive name num =
      ⟨Except.error (CorpusError.notADirectory path),
        removeUnder (setFs fs0 (root ++ [tmp]) Entry.dir) (root ++ [tmp]),
        false, false⟩ := by
    simp [populate, hres, hl]
  rw [hout]
  refine ⟨rfl, rfl, ?_⟩
  rw [lookup_removeUnder, htl]
  simp [hl]

/-- Witness for `populate_conflict`: the target path for crate `"ab"`
version `"1"` is occupied by a plain file. -/
theorem populate_conflict_witness :
    (populate [([[114], [97], [97, 98], [97, 98], [49]], Entry.file)] [[114]]
      [116] true none [97, 98] [49]).result =
      Except.error (CorpusError.notADirectory [[114], [97], [97, 98], [97, 98], [49]]) :=
  (populate_conflict [([[114], [97], [97, 98], [97, 98], [49]], Entry.file)]
    [[114]] [116] true none [97, 98] [49] [[114], [97], [97, 98], [97, 98], [49]]
    (by decide) (by decide) (by decide)).1

/-- Claim C2, counterexample: with an empty vault rooted at `r`, populating
crate `"ab"` version `"1"` under a failing fetch returns the transport
error, yet the target path `r/a/ab/ab/1` exists as a directory afterwards —
`create_dir_all(&path)` created the target itself before the fetch — so the
target is not absent as the claim states, and the retry is not a fresh
attempt. -/
theorem populate_failure_target_present_counterexample :
    (populate [([[114]], Entry.dir)] [[114]] [116] false none [97, 98] [49]).result =
      Except.error CorpusError.reqwestErr ∧
    lookupFs (populate [([[114]], Entry.dir)] [[114]] [116] false none [97, 98] [49]).fs
      [[114], [97], [97, 98], [97, 98], [49]] = some Entry.dir ∧
    (populate
      (populate [([[114]], Entry.dir)] [[114]] [116] false none [97, 98] [49]).fs
      [[114]] [117] false none [97, 98] [49]).result =
        Except.ok [[114], [97], [97, 98], [97, 98], [49]] := by
  decide

/-- Claim C3, counterexample: starting from a vault whose target path is
absent, a populate whose fetch fails leaves a directory at the target path
that is empty — the archive for `"ab-1"` contains a `Cargo.toml` entry, and
a successful populate of the same key places it beneath the target, while
after the failed call nothing is beneath the target and the directory did
not pre-exist.  A directory at the target is therefore observable without
being fully populated, and the rename is not the only transition from
absent to present. -/
theorem populate_partial_state_counterexample :
    lookupFs [([[114]], Entry.dir)] [[114], [97], [97, 98], [97, 98], [49]] = none ∧
    (populate [([[114]], Entry.dir)] [[114]] [116] false
      (some [([[97, 98, 45, 49]], Entry.dir), ([[97, 98, 45, 49], [67]], Entry.file)])
      [97, 98] [49]).result = Except.error CorpusError.reqwestErr ∧
    lookupFs (populate [([[114]], Entry.dir)] [[114]] [116] false
      (some [([[97, 98, 45, 49]], Entry.dir), ([[97, 98, 45, 49], [67]], Entry.file)])
      [97, 98] [49]).fs [[114], [97], [97, 98], [97, 98], [49]] = some Entry.dir ∧
    lookupFs (populate [([[114]], Entry.dir)] [[114]] [116] false
      (some [([[97, 98, 45, 49]], Entry.dir), ([[97, 98, 45, 49], [67]], Entry.file)])
      [97, 98] [49]).fs [[114], [97], [97, 98], [97, 98], [49], [67]] = none ∧
    lookupFs (populate [([[114]], Entry.dir)] [[114]] [116] true
      (some [([[97, 98, 45, 49]], Entry.dir), ([[97, 98, 45, 49], [67]], Entry.file)])
      [97, 98] [49]).fs [[114], [97], [97, 98], [97, 98], [49], [67]] =
        some Entry.file := by
  decide

/-! ## Toolkit for the staged part of populate -/

theorem leadB_take (p : Path) (k : Nat) : leadB (p.take k) p = true := by
  rw [leadB_iff, List.length_take]
  rcases Nat.le_total k p.length with h | h
  · rw [Nat.min_eq_left h]
  · rw [Nat.min_eq_right h, List.take_length, List.take_of_length_le h]

theorem lookup_none_of_ne_keys {fs : Fs} {q : Path} (h : ∀ e ∈ fs, e.1 ≠ q) :
    lookupFs fs q = none := by
  induction fs with
  | nil => rfl
  | cons e rest ih =>
    have he : e.1 ≠ q := h e (by simp)
    simp only [lookupFs, if_neg he]
    exact ih (fun x hx => h x (by simp [hx]))

theorem lookup_append_some {a : Fs} (b : Fs) {q : Path} {v : Entry}
    (h : lookupFs a q = some v) : lookupFs (a ++ b) q = some v := by
  induction a with
  | nil => exact absurd h (by simp [lookupFs])
  | cons e rest ih =>
    by_cases he : e.1 = q
    · simp only [lookupFs, if_pos he] at h
      simp [lookupFs, he, h]
    · simp only [lookupFs, if_neg he] at h
      simp only [List.cons_append, lookupFs, if_neg he]
      exact ih h

theorem lookup_append_none {a : Fs} (b : Fs) {q : Path}
    (h : lookupFs a q = none) : lookupFs (a ++ b) q = lookupFs b q := by
  induction a with
  | nil => rfl
  | cons e rest ih =>
    by_cases he : e.1 = q
    · simp [lookupFs, he] at h
    · simp only [lookupFs, if_neg he] at h
      simp only [List.cons_append, lookupFs, if_neg he]
      exact ih h

theorem lookup_range_map (p : Path) (L : Nat) (q : Path) :
    lookupFs ((List.range L).map (fun k => (p.take (k + 1), Entry.dir))) q =
      if ∃ k, k < L ∧ q = p.take (k + 1) then some Entry.dir else none := by
  induction L with
  | zero =>
    rw [if_neg]
    · rfl
    · rintro ⟨k, hk, _⟩
      omega
  | succ L ih =>
    rw [List.range_succ, List.map_append]
    by_cases h : ∃ k, k < L ∧ q = p.take (k + 1)
    · rw [lookup_append_some _ (by rw [ih, if_pos h]), if_pos]
      obtain ⟨k, hk, hq⟩ := h
      exact ⟨k, by omega, hq⟩
    · rw [lookup_append_none _ (by rw [ih, if_neg h])]
      simp only [List.map_cons, List.map_nil]
      by_cases hL : p.take (L + 1) = q
      · rw [if_pos ⟨L, by omega, hL.symm⟩]
        simp [lookupFs, hL]
      · rw [if_neg]
        · simp [lookupFs, hL]
        · rintro ⟨k, hk, hq⟩
          rcases Nat.lt_or_ge k L with hkL | hkL
          · exact h ⟨k, hkL, hq⟩
          · have hkeq : k = L := by omega
            subst hkeq
            exact hL hq.symm

theorem lookup_dirsFor (p q : Path) :
    lookupFs (dirsFor p) q =
      if leadB q p = true ∧ q ≠ [] then some Entry.dir else none := by
  rw [dirsFor, lookup_range_map]
  congr 1
  simp only [eq_iff_iff]
  constructor
  · rintro ⟨k, hk, hq⟩
    subst hq
    refine ⟨leadB_take p (k + 1), ?_⟩
    intro hnil
    have hlen := congrArg List.length hnil
    rw [List.length_take, List.length_nil] at hlen
    omega
  · rintro ⟨hlead, hnil⟩
    rw [leadB_iff] at hlead
    have hql : 1 ≤ q.length := by
      cases q with
      | nil => exact absurd rfl hnil
      | cons a l => simp
    have hle : q.length ≤ p.length := by
      have hlen := congrArg List.length hlead
      rw [List.length_take] at hlen
      omega
    exact ⟨q.length - 1, by omega, by rw [Nat.sub_add_cancel hql]; exact hlead.symm⟩

theorem lookup_mapBase (l : Fs) (base r : Path) :
    lookupFs (l.map (fun e => (base ++ e.1, e.2))) (base ++ r) = lookupFs l r := by
  induction l with
  | nil => rfl
  | cons e rest ih =>
    by_cases h : e.1 = r
    · subst h
      simp [lookupFs]
    · have hne : base ++ e.1 ≠ base ++ r := by
        intro hc
        exact h (List.append_cancel_left hc)
      simp [lookupFs, hne, h, ih]

theorem lookup_mapBase_none (l : Fs) (base q : Path) (h : leadB base q = false) :
    lookupFs (l.map (fun e => (base ++ e.1, e.2))) q = none := by
  apply lookup_none_of_ne_keys
  intro e he
  simp only [List.mem_map] at he
  obtain ⟨x, _, hx⟩ := he
  intro hq
  rw [← hx] at hq
  simp only at hq
  rw [← hq, leadB_append] at h
  exact Bool.noConfusion h

theorem remapUnder_cons_pos {src : Path} {e : Path × Entry}
    (hl : leadB src e.1 = true) (rest : Fs) (dst : Path) :
    remapUnder (e :: rest) src dst =
      (dst ++ e.1.drop src.length, e.2) :: remapUnder rest src dst := by
  simp [remapUnder, hl]

theorem remapUnder_cons_neg {src : Path} {e : Path × Entry}
    (hl : ¬leadB src e.1 = true) (rest : Fs) (dst : Path) :
    remapUnder (e :: rest) src dst = remapUnder rest src dst := by
  simp [remapUnder, hl]

theorem lookup_remap (fs : Fs) (src dst r : Path) :
    lookupFs (remapUnder fs src dst) (dst ++ r) = lookupFs fs (src ++ r) := by
  induction fs with
  | nil => rfl
  | cons e rest ih =>
    by_cases hl : leadB src e.1 = true
    · have hdrop : e.1 = src ++ e.1.drop src.length := eq_append_drop_of_leadB hl
      rw [remapUnder_cons_pos hl]
      by_cases heq : e.1 = src ++ r
      · have hr : e.1.drop src.length = r := by
          rw [heq]
          exact List.drop_left src r
        rw [hr]
        simp [lookupFs, heq]
      · have hr : dst ++ e.1.drop src.length ≠ dst ++ r := by
          intro hc
          have h2 := List.append_cancel_left hc
          rw [hdrop, h2] at heq
          exact heq rfl
        simp only [lookupFs, if_neg hr, if_neg heq]
        exact ih
    · rw [remapUnder_cons_neg hl]
      have heq : e.1 ≠ src ++ r := by
        intro hc
        rw [hc, leadB_append] at hl
        exact hl rfl
      simp only [lookupFs, if_neg heq]
      exact ih

theorem lookup_remap_none (fs : Fs) (src dst q : Path) (h : leadB dst q = false) :
    lookupFs (remapUnder fs src dst) q = none := by
  apply lookup_none_of_ne_keys
  intro e he
  simp only [remapUnder, List.mem_filterMap] at he
  obtain ⟨x, _, hx⟩ := he
  by_cases hl : leadB src x.1 = true
  · rw [if_pos hl] at hx
    have he2 := Option.some.inj hx
    rw [← he2]
    intro hq
    simp only at hq
    rw [← hq, leadB_append] at h
    exact Bool.noConfusion h
  · rw [if_neg hl] at hx
    exact Option.noConfusion hx

theorem leadB_trans {a b c : Path} (h1 : leadB a b = true) (h2 : leadB b c = true) :
    leadB a c = true := by
  have hl : a.length ≤ b.length := leadB_length h1
  rw [leadB_iff] at h1 h2 ⊢
  calc c.take a.length = (c.take b.length).take a.length := by
        rw [List.take_take, Nat.min_eq_left hl]
    _ = b.take a.length := by rw [h2]
    _ = a := h1

theorem not_leadB_of_longer {d q : Path} (h : q.length < d.length) :
    leadB d q = false := by
  by_cases hb : leadB d q = true
  · exact absurd (leadB_length hb) (by omega)
  · exact Bool.not_eq_true _ |>.mp hb

theorem strictLeadB_parts {d q : Path} (h : strictLeadB d q = true) :
    leadB d q = true ∧ d.length < q.length := by
  simp only [strictLeadB, Bool.and_eq_true, decide_eq_true_eq] at h
  exact h

theorem leadB_append_right {d p : Path} (rest : Path) (h : leadB d p = true) :
    leadB d (p ++ rest) = true :=
  leadB_trans h (leadB_append p rest)

theorem not_leadB_append {d p : Path} (rest : Path) (hlen : d.length ≤ p.length)
    (h : leadB d p = false) : leadB d (p ++ rest) = false := by
  by_cases hb : leadB d (p ++ rest) = true
  · rw [leadB_iff, List.take_append_of_le_length hlen] at hb
    rw [(leadB_iff d p).mpr hb] at h
    exact Bool.noConfusion h
  · exact Bool.not_eq_true _ |>.mp hb

theorem crate_version_path_ok_shape {root : Path} {n v : ByteStr} {path : Path}
    (h : crate_version_path root n v = Except.ok path) :
    ∃ mid, path = root ++ mid ∧ 3 ≤ mid.length := by
  unfold crate_version_path at h
  cases h1 : strGetTo n 1 with
  | none =>
    rw [h1] at h
    exact absurd h (by simp)
  | some one =>
    rw [h1] at h
    cases h2 : strGetTo n 2 with
    | none =>
      rw [h2] at h
      by_cases hv : v = []
      · simp [hv] at h
      · simp only [if_neg hv, Except.ok.injEq] at h
        exact ⟨[one, n, v], by rw [← h]; simp, by simp⟩
    | some two =>
      rw [h2] at h
      by_cases hv : v = []
      · simp [hv] at h
      · simp only [if_neg hv, Except.ok.injEq] at h
        exact ⟨[one, two, n, v], by rw [← h]; simp, by simp⟩

theorem crate_version_path_ok_ne_nil {root : Path} {n v : ByteStr} {path : Path}
    (h : crate_version_path root n v = Except.ok path) : path ≠ [] := by
  obtain ⟨mid, hmid, hlen⟩ := crate_version_path_ok_shape h
  intro hn
  rw [hn] at hmid
  have := congrArg List.length hmid
  simp at this
  omega

theorem crate_version_path_ok_length {root : Path} {n v : ByteStr} {path : Path}
    (h : crate_version_path root n v = Except.ok path) :
    root.length + 3 ≤ path.length := by
  obtain ⟨mid, hmid, hlen⟩ := crate_version_path_ok_shape h
  rw [hmid]
  simp
  omega

theorem createDirAll_setFs_ok (fs0 : Fs) (root : Path) (tmp : ByteStr) (path : Path)
    (hnofile : ∀ k, k ≤ path.length → lookupFs fs0 (path.take k) ≠ some Entry.file) :
    createDirAll (setFs fs0 (root ++ [tmp]) Entry.dir) path =
      Except.ok (dirsFor path ++ setFs fs0 (root ++ [tmp]) Entry.dir) := by
  rw [createDirAll, if_neg]
  intro hany
  rw [List.any_eq_true] at hany
  obtain ⟨k, hk, hkf⟩ := hany
  rw [List.mem_range] at hk
  rw [decide_eq_true_eq, lookup_setFs] at hkf
  by_cases he : root ++ [tmp] = path.take k
  · rw [if_pos he] at hkf
    exact Entry.noConfusion (Option.some.inj hkf)
  · rw [if_neg he] at hkf
    exact hnofile k (by omega) hkf

theorem populate_fetch_failed (fs0 : Fs) (root : Path) (tmp : ByteStr)
    (archive : Option Fs) (name num : ByteStr) (path : Path)
    (hres : crate_version_path root name num = Except.ok path)
    (habsent : lookupFs fs0 path = none)
    (hnofile : ∀ k, k ≤ path.length → lookupFs fs0 (path.take k) ≠ some Entry.file)
    (htl : leadB (root ++ [tmp]) path = false) :
    populate fs0 root tmp false archive name num =
      ⟨Except.error CorpusError.reqwestErr,
        removeUnder (dirsFor path ++ setFs fs0 (root ++ [tmp]) Entry.dir)
          (root ++ [tmp]), true, false⟩ := by
  have h1 : lookupFs (setFs fs0 (root ++ [tmp]) Entry.dir) path = none := by
    rw [lookup_setFs, if_neg (ne_of_not_leadB htl)]
    exact habsent
  have h2 := createDirAll_setFs_ok fs0 root tmp path hnofile
  simp [populate, hres, h1, h2]

theorem populate_unpack_failed (fs0 : Fs) (root : Path) (tmp : ByteStr)
    (name num : ByteStr) (path : Path)
    (hres : crate_version_path root name num = Except.ok path)
    (habsent : lookupFs fs0 path = none)
    (hnofile : ∀ k, k ≤ path.length → lookupFs fs0 (path.take k) ≠ some Entry.file)
    (htl : leadB (root ++ [tmp]) path = false) :
    populate fs0 root tmp true none name num =
      ⟨Except.error CorpusError.ioErr,
        removeUnder (dirsFor path ++ setFs fs0 (root ++ [tmp]) Entry.dir)
          (root ++ [tmp]), true, true⟩ := by
  have h1 : lookupFs (setFs fs0 (root ++ [tmp]) Entry.dir) path = none := by
    rw [lookup_setFs, if_neg (ne_of_not_leadB htl)]
    exact habsent
  have h2 := createDirAll_setFs_ok fs0 root tmp path hnofile
  simp [populate, hres, h1, h2]

theorem populate_extracted (fs0 : Fs) (root : Path) (tmp : ByteStr) (ar : Fs)
    (name num : ByteStr) (path : Path)
    (hres : crate_version_path root name num = Except.ok path)
    (habsent : lookupFs fs0 path = none)
    (hnofile : ∀ k, k ≤ path.length → lookupFs fs0 (path.take k) ≠ some Entry.file)
    (htl : leadB (root ++ [tmp]) path = false) :
    populate fs0 root tmp true (some ar) name num =
      (match renameFs
          (extractArchive (dirsFor path ++ setFs fs0 (root ++ [tmp]) Entry.dir)
            (root ++ [tmp]) ar)
          ((root ++ [tmp]) ++ [name ++ [45] ++ num]) path with
        | Except.error e =>
          ⟨Except.error e,
            removeUnder
              (extractArchive (dirsFor path ++ setFs fs0 (root ++ [tmp]) Entry.dir)
                (root ++ [tmp]) ar) (root ++ [tmp]), true, true⟩
        | Except.ok fs4 =>
          ⟨Except.ok path, removeUnder fs4 (root ++ [tmp]), true, true⟩) := by
  have h1 : lookupFs (setFs fs0 (root ++ [tmp]) Entry.dir) path = none := by
    rw [lookup_setFs, if_neg (ne_of_not_leadB htl)]
    exact habsent
  have h2 := createDirAll_setFs_ok fs0 root tmp path hnofile
  simp [populate, hres, h1, h2]

theorem failState_lookup_path (fs0 : Fs) (root : Path) (tmp : ByteStr) (path : Path)
    (hne : path ≠ []) (htl : leadB (root ++ [tmp]) path = false) :
    lookupFs (removeUnder (dirsFor path ++ setFs fs0 (root ++ [tmp]) Entry.dir)
      (root ++ [tmp])) path = some Entry.dir := by
  rw [lookup_removeUnder, htl]
  simp only [Bool.false_eq_true, if_false]
  exact lookup_append_some _ (by rw [lookup_dirsFor, if_pos ⟨leadB_refl path, hne⟩])

theorem failState_nothing_under (fs0 : Fs) (root : Path) (tmp : ByteStr)
    (path q : Path)
    (hclean : ∀ e ∈ fs0, strictLeadB path e.1 = false)
    (hq : strictLeadB path q = true) :
    lookupFs (removeUnder (dirsFor path ++ setFs fs0 (root ++ [tmp]) Entry.dir)
      (root ++ [tmp])) q = none := by
  rw [lookup_removeUnder]
  by_cases htq : leadB (root ++ [tmp]) q = true
  · rw [htq, if_pos rfl]
  · have htqf : leadB (root ++ [tmp]) q = false := Bool.not_eq_true _ |>.mp htq
    rw [htqf]
    simp only [Bool.false_eq_true, if_false]
    obtain ⟨hql, hqlen⟩ := strictLeadB_parts hq
    have hdirs : lookupFs (dirsFor path) q = none := by
      rw [lookup_dirsFor, if_neg]
      rintro ⟨hlq, -⟩
      exact absurd (leadB_length hlq) (by omega)
    rw [lookup_append_none _ hdirs, lookup_setFs,
      if_neg (ne_of_not_leadB htqf)]
    apply lookup_none_of_ne_keys
    intro e he heq
    have := hclean e he
    rw [heq, hq] at this
    exact Bool.noConfusion this

/-- Claim C2, amended: when the target was absent and the fetch or the
extraction fails before the rename, `populate` returns the corresponding
error, but the target path then exists as a directory with nothing beneath
it — `create_dir_all(&path)` created the target itself before the fetch —
and a re-invoked `populate` of the same key returns that path immediately
without a fresh fetch.  A fresh fetch happens only after the caller removes
the leftover directory. -/
theorem populate_failure_retry (fs0 : Fs) (root : Path) (tmp : ByteStr)
    (fetchOk : Bool) (archive : Option Fs) (name num : ByteStr) (path : Path)
    (hres : crate_version_path root name num = Except.ok path)
    (habsent : lookupFs fs0 path = none)
    (hclean : ∀ e ∈ fs0, strictLeadB path e.1 = false)
    (hnofile : ∀ k, k ≤ path.length → lookupFs fs0 (path.take k) ≠ some Entry.file)
    (htl : leadB (root ++ [tmp]) path = false)
    (hfail : fetchOk = false ∨ archive = none) :
    (∃ er, (populate fs0 root tmp fetchOk archive name num).result =
      Except.error er) ∧
    lookupFs (populate fs0 root tmp fetchOk archive name num).fs path =
      some Entry.dir ∧
    (∀ q, strictLeadB path q = true →
      lookupFs (populate fs0 root tmp fetchOk archive name num).fs q = none) ∧
    (∀ tmp2 fOk2 ar2,
      (populate (populate fs0 root tmp fetchOk archive name num).fs
        root tmp2 fOk2 ar2 name num).result = Except.ok path ∧
      (populate (populate fs0 root tmp fetchOk archive name num).fs
        root tmp2 fOk2 ar2 name num).fetched = false) := by
  have hne : path ≠ [] := crate_version_path_ok_ne_nil hres
  have hout : populate fs0 root tmp fetchOk archive name num =
      ⟨Except.error (if fetchOk then CorpusError.ioErr else CorpusError.reqwestErr),
        removeUnder (dirsFor path ++ setFs fs0 (root ++ [tmp]) Entry.dir)
          (root ++ [tmp]), true, fetchOk⟩ := by
    rcases hfail with hf | ha
    · subst hf
      simp [populate_fetch_failed fs0 root tmp archive name num path hres habsent
        hnofile htl]
    · subst ha
      cases fetchOk with
      | false =>
        simp [populate_fetch_failed fs0 root tmp none name num path hres habsent
          hnofile htl]
      | true =>
        simp [populate_unpack_failed fs0 root tmp name num path hres habsent
          hnofile htl]
  rw [hout]
  refine ⟨⟨_, rfl⟩, failState_lookup_path fs0 root tmp path hne htl,
    fun q hq => failState_nothing_under fs0 root tmp path q hclean hq, ?_⟩
  intro tmp2 fOk2 ar2
  have hdir := failState_lookup_path fs0 root tmp path hne htl
  have := populate_short_circuit
    (removeUnder (dirsFor path ++ setFs fs0 (root ++ [tmp]) Entry.dir)
      (root ++ [tmp])) root tmp2 fOk2 ar2 name num path hres hdir
  rw [this]
  exact ⟨rfl, rfl⟩

/-- Witness for `populate_failure_retry`: a populate of crate `"ab"` version
`"1"` into an empty vault under a failing fetch, then a retry. -/
theorem populate_failure_retry_witness :
    lookupFs (populate [([[114]], Entry.dir)] [[114]] [116] false none [97, 98] [49]).fs
      [[114], [97], [97, 98], [97, 98], [49]] = some Entry.dir ∧
    (populate (populate [([[114]], Entry.dir)] [[114]] [116] false none [97, 98] [49]).fs
      [[114]] [117] true none [97, 98] [49]).fetched = false :=
  ⟨(populate_failure_retry [([[114]], Entry.dir)] [[114]] [116] false none
      [97, 98] [49] [[114], [97], [97, 98], [97, 98], [49]] (by decide) (by decide)
      (by decide) (by decide) (by decide) (Or.inl rfl)).2.1,
    ((populate_failure_retry [([[114]], Entry.dir)] [[114]] [116] false none
      [97, 98] [49] [[114], [97], [97, 98], [97, 98], [49]] (by decide) (by decide)
      (by decide) (by decide) (by decide) (Or.inl rfl)).2.2.2 [117] true none).2⟩

theorem renameFs_ok_parts {fs : Fs} {src dst : Path} {fs4 : Fs}
    (h : renameFs fs src dst = Except.ok fs4) :
    fs4 = remapUnder fs src dst ++
        fs.filter (fun e => !leadB src e.1 && !leadB dst e.1) ∧
    (lookupFs fs dst = some Entry.dir → lookupFs fs src = some Entry.dir) := by
  unfold renameFs at h
  cases hs : lookupFs fs src with
  | none =>
    rw [hs] at h
    exact absurd h (by simp)
  | some sk =>
    simp only [hs] at h
    by_cases hb : renameDstOk fs dst sk = true
    · rw [if_pos hb] at h
      refine ⟨(Except.ok.inj h).symm, ?_⟩
      intro hdst
      rw [renameDstOk, hdst] at hb
      simp only [] at hb
      have hsk := ((Bool.and_eq_true _ _).mp hb).1
      rw [decide_eq_true_eq] at hsk
      rw [hsk]
    · rw [if_neg hb] at h
      exact absurd h (by simp)

theorem removeUnder_extract (fs : Fs) (base : Path) (ar : Fs) :
    removeUnder (extractArchive fs base ar) base = removeUnder fs base := by
  rw [extractArchive, removeUnder, removeUnder, List.filter_append]
  have hnil : (ar.reverse.map (fun e => (base ++ e.1, e.2))).filter
      (fun e => !leadB base e.1) = [] := by
    rw [List.filter_eq_nil_iff]
    intro e he
    simp only [List.mem_map] at he
    obtain ⟨x, _, hx⟩ := he
    rw [← hx]
    simp [leadB_append]
  rw [hnil, List.nil_append]

/-- Claim C3, amended: starting from a state where the target path is
absent, a populate that succeeds leaves the target as a directory whose
entries beneath it are exactly the extracted `{name}-{num}` subtree of the
archive, while a populate that fails after the existence check leaves the
target as a directory with nothing beneath it, created by
`create_dir_all(&path)` before the fetch.  The atomic rename is therefore
not the only transition from absent to present: an empty directory at the
target is observable after a failed call. -/
theorem populate_absent_observations (fs0 : Fs) (root : Path) (tmp : ByteStr)
    (fetchOk : Bool) (ar : Fs) (name num : ByteStr) (path : Path)
    (hres : crate_version_path root name num = Except.ok path)
    (habsent : lookupFs fs0 path = none)
    (hclean : ∀ e ∈ fs0, strictLeadB path e.1 = false)
    (hcleanT : ∀ e ∈ fs0, strictLeadB (root ++ [tmp]) e.1 = false)
    (hnofile : ∀ k, k ≤ path.length → lookupFs fs0 (path.take k) ≠ some Entry.file)
    (htl : leadB (root ++ [tmp]) path = false) :
    (∀ p', (populate fs0 root tmp fetchOk (some ar) name num).result =
      Except.ok p' → p' = path) ∧
    ((populate fs0 root tmp fetchOk (some ar) name num).result = Except.ok path →
      lookupFs (populate fs0 root tmp fetchOk (some ar) name num).fs path =
        some Entry.dir ∧
      (∀ rest, rest ≠ [] →
        lookupFs (populate fs0 root tmp fetchOk (some ar) name num).fs
          (path ++ rest) =
        lookupFs ar.reverse ([name ++ [45] ++ num] ++ rest))) ∧
    ((∃ er, (populate fs0 root tmp fetchOk (some ar) name num).result =
      Except.error er) →
      lookupFs (populate fs0 root tmp fetchOk (some ar) name num).fs path =
        some Entry.dir ∧
      (∀ q, strictLeadB path q = true →
        lookupFs (populate fs0 root tmp fetchOk (some ar) name num).fs q = none)) := by
  have hne : path ≠ [] := crate_version_path_ok_ne_nil hres
  cases fetchOk with
  | false =>
    rw [populate_fetch_failed fs0 root tmp (some ar) name num path hres habsent
      hnofile htl]
    refine ⟨fun p' hp' => Except.noConfusion hp', fun hok => Except.noConfusion hok,
      fun _ => ⟨failState_lookup_path fs0 root tmp path hne htl,
        fun q hq => failState_nothing_under fs0 root tmp path q hclean hq⟩⟩
  | true =>
    rw [populate_extracted fs0 root tmp ar name num path hres habsent hnofile htl]
    have hdst3 : lookupFs
        (extractArchive (dirsFor path ++ setFs fs0 (root ++ [tmp]) Entry.dir)
          (root ++ [tmp]) ar) path = some Entry.dir := by
      rw [extractArchive, lookup_append_none _ (lookup_mapBase_none _ _ _ htl)]
      exact lookup_append_some _ (by rw [lookup_dirsFor, if_pos ⟨leadB_refl path, hne⟩])
    cases hr : renameFs
        (extractArchive (dirsFor path ++ setFs fs0 (root ++ [tmp]) Entry.dir)
          (root ++ [tmp]) ar)
        ((root ++ [tmp]) ++ [name ++ [45] ++ num]) path with
    | error e =>
      simp only [hr]
      refine ⟨fun p' hp' => Except.noConfusion hp', fun hok => Except.noConfusion hok,
        fun _ => ?_⟩
      rw [removeUnder_extract]
      exact ⟨failState_lookup_path fs0 root tmp path hne htl,
        fun q hq => failState_nothing_under fs0 root tmp path q hclean hq⟩
    | ok fs4 =>
      simp only [hr]
      obtain ⟨hfs4, hsk⟩ := renameFs_ok_parts hr
      have hsrc : lookupFs
          (extractArchive (dirsFor path ++ setFs fs0 (root ++ [tmp]) Entry.dir)
            (root ++ [tmp]) ar)
          ((root ++ [tmp]) ++ [name ++ [45] ++ num]) = some Entry.dir := hsk hdst3
      have hlen1 : (root ++ [tmp]).length ≤ path.length := by
        have := crate_version_path_ok_length hres
        simp only [List.length_append, List.length_cons, List.length_nil]
        omega
      refine ⟨fun p' hp' => (Except.ok.inj hp').symm, fun _ => ?_,
        fun her => ?_⟩
      · constructor
        · rw [lookup_removeUnder, htl]
          simp only [Bool.false_eq_true, if_false]
          rw [hfs4]
          apply lookup_append_some
          have := lookup_remap
            (extractArchive (dirsFor path ++ setFs fs0 (root ++ [tmp]) Entry.dir)
              (root ++ [tmp]) ar)
            ((root ++ [tmp]) ++ [name ++ [45] ++ num]) path []
          rw [List.append_nil, List.append_nil] at this
          rw [this]
          exact hsrc
        · intro rest hrest
          have htlext : leadB (root ++ [tmp]) (path ++ rest) = false :=
            not_leadB_append rest hlen1 htl
          rw [lookup_removeUnder, htlext]
          simp only [Bool.false_eq_true, if_false]
          rw [hfs4]
          have hremap := lookup_remap
            (extractArchive (dirsFor path ++ setFs fs0 (root ++ [tmp]) Entry.dir)
              (root ++ [tmp]) ar)
            ((root ++ [tmp]) ++ [name ++ [45] ++ num]) path rest
          have hassoc : ((root ++ [tmp]) ++ [name ++ [45] ++ num]) ++ rest =
              (root ++ [tmp]) ++ ([name ++ [45] ++ num] ++ rest) :=
            List.append_assoc _ _ _
          cases harl : lookupFs ar.reverse ([name ++ [45] ++ num] ++ rest) with
          | some v =>
            apply lookup_append_some
            rw [hremap, hassoc, extractArchive]
            apply lookup_append_some
            rw [lookup_mapBase]
            exact harl
          | none =>
            have hne2 : ¬(root ++ [tmp] =
                (root ++ [tmp]) ++ ([name ++ [45] ++ num] ++ rest)) := by
              intro hc
              have := congrArg List.length hc
              simp at this
            have hdirs : lookupFs (dirsFor path)
                ((root ++ [tmp]) ++ ([name ++ [45] ++ num] ++ rest)) = none := by
              rw [lookup_dirsFor, if_neg]
              rintro ⟨hlq, -⟩
              have hlead1 : leadB (root ++ [tmp])
                  ((root ++ [tmp]) ++ ([name ++ [45] ++ num] ++ rest)) = true :=
                leadB_append _ _
              rw [leadB_trans hlead1 hlq] at htl
              exact Bool.noConfusion htl
            have hfs0n : lookupFs fs0
                ((root ++ [tmp]) ++ ([name ++ [45] ++ num] ++ rest)) = none := by
              apply lookup_none_of_ne_keys
              intro e he heq
              have hst : strictLeadB (root ++ [tmp])
                  ((root ++ [tmp]) ++ ([name ++ [45] ++ num] ++ rest)) = true := by
                simp only [strictLeadB, leadB_append, Bool.true_and,
                  decide_eq_true_eq, List.length_append, List.length_singleton]
                omega
              have hce := hcleanT e he
              rw [heq, hst] at hce
              exact Bool.noConfusion hce
            have hmiss : lookupFs
                (extractArchive (dirsFor path ++ setFs fs0 (root ++ [tmp]) Entry.dir)
                  (root ++ [tmp]) ar)
                (((root ++ [tmp]) ++ [name ++ [45] ++ num]) ++ rest) = none := by
              rw [hassoc, extractArchive,
                lookup_append_none _ (by rw [lookup_mapBase]; exact harl),
                lookup_append_none _ hdirs, lookup_setFs, if_neg hne2]
              exact hfs0n
            have hfil := lookup_filter_key
              (fun x => !leadB ((root ++ [tmp]) ++ [name ++ [45] ++ num]) x &&
                !leadB path x)
              (extractArchive (dirsFor path ++ setFs fs0 (root ++ [tmp]) Entry.dir)
                (root ++ [tmp]) ar)
              (path ++ rest)
            rw [lookup_append_none _ (by rw [hremap]; exact hmiss), hfil, if_neg]
            intro hcond
            rw [leadB_append path rest] at hcond
            simp at hcond
      · obtain ⟨er, her'⟩ := her
        exact absurd her' (by simp)

/-- Witness for `populate_absent_observations`: a successful populate of
crate `"ab"` version `"1"` places the archive's `Cargo.toml` beneath the
target. -/
theorem populate_absent_observations_witness :
    lookupFs (populate [([[114]], Entry.dir)] [[114]] [116] true
      (some [([[97, 98, 45, 49]], Entry.dir), ([[97, 98, 45, 49], [67]], Entry.file)])
      [97, 98] [49]).fs [[114], [97], [97, 98], [97, 98], [49]] = some Entry.dir ∧
    lookupFs (populate [([[114]], Entry.dir)] [[114]] [116] true
      (some [([[97, 98, 45, 49]], Entry.dir), ([[97, 98, 45, 49], [67]], Entry.file)])
      [97, 98] [49]).fs ([[114], [97], [97, 98], [97, 98], [49]] ++ [[67]]) =
      lookupFs
        ([([[97, 98, 45, 49]], Entry.dir),
          ([[97, 98, 45, 49], [67]], Entry.file)] : Fs).reverse
        ([[97, 98] ++ [45] ++ [49]] ++ [[67]]) := by
  have h := populate_absent_observations [([[114]], Entry.dir)] [[114]] [116] true
    [([[97, 98, 45, 49]], Entry.dir), ([[97, 98, 45, 49], [67]], Entry.file)]
    [97, 98] [49] [[114], [97], [97, 98], [97, 98], [49]] (by decide) (by decide)
    (by decide) (by decide) (by decide) (by decide)
  have h2 := h.2.1 (by decide)
  exact ⟨h2.1, h2.2 [[67]] (by decide)⟩

/-! ## Toolkit for the manifest walk: sizes, fuel irrelevance, step equations -/

theorem size_pos (t : FTree) : 0 < t.size := by
  cases t <;> simp [FTree.size]

theorem insertChain_size (n : ByteStr) (t c : FTree) :
    (insertChain n t c).size = 1 + t.size + c.size := by
  induction c with
  | dcons m u rest _ ih =>
    rw [insertChain]
    split
    · simp [FTree.size]
    · simp only [FTree.size, ih]
      omega
  | file pc => simp [insertChain, FTree.size]
  | other => simp [insertChain, FTree.size]
  | dnil => simp [insertChain, FTree.size]

theorem sortChain_size (c : FTree) : (sortChain c).size ≤ c.size := by
  induction c with
  | dcons m u rest _ ih =>
    simp only [sortChain, insertChain_size, FTree.size]
    omega
  | file pc => simp [sortChain, FTree.size]
  | other => simp [sortChain, FTree.size]
  | dnil => simp [sortChain, FTree.size]

theorem filterChain_size (p : ByteStr → FTree → Bool) (c : FTree) :
    (filterChain p c).size ≤ c.size := by
  induction c with
  | dcons m u rest _ ih =>
    rw [filterChain]
    split
    · simp only [FTree.size]
      omega
    · simp only [FTree.size]
      have := size_pos u
      omega
  | file pc => simp [filterChain, FTree.size]
  | other => simp [filterChain, FTree.size]
  | dnil => simp [filterChain, FTree.size]

theorem filterChain_pair_size (p : ByteStr → FTree → Bool) (c : FTree) :
    (filterChain p c).size + (filterChain (fun n t => !p n t) c).size ≤
      c.size + 1 := by
  induction c with
  | dcons m u rest _ ih =>
    by_cases hp : p m u = true
    · rw [filterChain, if_pos hp, filterChain, if_neg (by simp [hp])]
      simp only [FTree.size]
      omega
    · have hp' : p m u = false := Bool.not_eq_true _ |>.mp hp
      rw [filterChain, if_neg (by simp [hp']), filterChain, if_pos (by simp [hp'])]
      simp only [FTree.size]
      omega
  | file pc => simp [filterChain, FTree.size]
  | other => simp [filterChain, FTree.size]
  | dnil => simp [filterChain, FTree.size]

theorem appendChain_size (a b : FTree) :
    (appendChain a b).size ≤ a.size + b.size := by
  induction a with
  | dcons m u rest _ ih =>
    simp only [appendChain, FTree.size]
    omega
  | file pc => simp [appendChain, FTree.size]
  | other => simp [appendChain, FTree.size]
  | dnil => simp [appendChain, FTree.size]

theorem sortEntries_size (c : FTree) : (sortEntries c).size ≤ c.size + 1 := by
  rw [sortEntries]
  have h1 := appendChain_size (filterChain is_manifest c)
    (sortChain (filterChain (fun n t => !is_manifest n t) c))
  have h2 := sortChain_size (filterChain (fun n t => !is_manifest n t) c)
  have h3 := filterChain_pair_size is_manifest c
  omega

theorem walkF_dnil (f : Nat) (p : Path) (seen : List Path) :
    walkF f p seen FTree.dnil = ([], seen) := by
  cases f <;> rfl

theorem walkF_file (f : Nat) (p : Path) (seen : List Path) (pc : Parsed) :
    walkF f p seen (FTree.file pc) = ([], seen) := by
  cases f <;> rfl

theorem walkF_other (f : Nat) (p : Path) (seen : List Path) :
    walkF f p seen FTree.other = ([], seen) := by
  cases f <;> rfl

theorem walkF_cons_manifest {n : ByteStr} {t : FTree} (hm : is_manifest n t = true)
    (f : Nat) (p : Path) (seen : List Path) (rest : FTree) :
    walkF (f + 1) p seen (FTree.dcons n t rest) =
      ((match t with | FTree.file c => [(p ++ [n], c)] | _ => []) ++
        (walkF f p (p :: seen) rest).1,
       (walkF f p (p :: seen) rest).2) := by
  simp only [walkF, hm, if_true]
  cases t <;> rfl

theorem walkF_cons_dir_claimed {n : ByteStr} {t : FTree} {p : Path}
    {seen : List Path} (hm : is_manifest n t = false) (hd : isDirNode t = true)
    (hc : seenContains seen (p ++ [n]) = true) (f : Nat) (rest : FTree) :
    walkF (f + 1) p seen (FTree.dcons n t rest) = walkF f p seen rest := by
  simp [walkF, hm, hd, hc]

theorem walkF_cons_dir_new {n : ByteStr} {t : FTree} {p : Path}
    {seen : List Path} (hm : is_manifest n t = false) (hd : isDirNode t = true)
    (hc : seenContains seen (p ++ [n]) = false) (f : Nat) (rest : FTree) :
    walkF (f + 1) p seen (FTree.dcons n t rest) =
      ((walkF f (p ++ [n]) seen (sortEntries t)).1 ++
        (walkF f p (walkF f (p ++ [n]) seen (sortEntries t)).2 rest).1,
       (walkF f p (walkF f (p ++ [n]) seen (sortEntries t)).2 rest).2) := by
  simp [walkF, hm, hd, hc]

theorem walkF_cons_skip {n : ByteStr} {t : FTree} (hm : is_manifest n t = false)
    (hd : isDirNode t = false) (f : Nat) (p : Path) (seen : List Path)
    (rest : FTree) :
    walkF (f + 1) p seen (FTree.dcons n t rest) = walkF f p seen rest := by
  simp [walkF, hm, hd]

theorem walkF_irrel : ∀ f1 f2 : Nat, ∀ c : FTree, ∀ p : Path, ∀ seen : List Path,
    c.size < f1 → c.size < f2 → walkF f1 p seen c = walkF f2 p seen c := by
  intro f1
  induction f1 with
  | zero =>
    intro f2 c p seen h1 _
    exact absurd h1 (Nat.not_lt_zero _)
  | succ g ih =>
    intro f2 c p seen h1 h2
    cases f2 with
    | zero => exact absurd h2 (Nat.not_lt_zero _)
    | succ h =>
      cases c with
      | dnil => rw [walkF_dnil, walkF_dnil]
      | file pc => rw [walkF_file, walkF_file]
      | other => rw [walkF_other, walkF_other]
      | dcons n t rest =>
        have hsz1 : 1 + t.size + rest.size < g + 1 := by
          simpa [FTree.size] using h1
        have hsz2 : 1 + t.size + rest.size < h + 1 := by
          simpa [FTree.size] using h2
        have htp := size_pos t
        have hrp := size_pos rest
        have hrest_g : rest.size < g := by omega
        have hrest_h : rest.size < h := by omega
        have hse := sortEntries_size t
        have hsort_g : (sortEntries t).size < g := by omega
        have hsort_h : (sortEntries t).size < h := by omega
        by_cases hm : is_manifest n t = true
        · rw [walkF_cons_manifest hm, walkF_cons_manifest hm,
            ih h rest p (p :: seen) hrest_g hrest_h]
        · have hm' : is_manifest n t = false := Bool.not_eq_true _ |>.mp hm
          by_cases hd : isDirNode t = true
          · by_cases hc : seenContains seen (p ++ [n]) = true
            · rw [walkF_cons_dir_claimed hm' hd hc, walkF_cons_dir_claimed hm' hd hc,
                ih h rest p seen hrest_g hrest_h]
            · have hc' : seenContains seen (p ++ [n]) = false :=
                Bool.not_eq_true _ |>.mp hc
              rw [walkF_cons_dir_new hm' hd hc', walkF_cons_dir_new hm' hd hc',
                ih h (sortEntries t) (p ++ [n]) seen hsort_g hsort_h,
                ih h rest p _ hrest_g hrest_h]
          · have hd' : isDirNode t = false := Bool.not_eq_true _ |>.mp hd
            rw [walkF_cons_skip hm' hd', walkF_cons_skip hm' hd',
              ih h rest p seen hrest_g hrest_h]

theorem walkC_eq_walkF {f : Nat} {c : FTree} (hf : c.size < f) (p : Path)
    (seen : List Path) : walkF f p seen c = walkC p seen c :=
  walkF_irrel f (c.size + 1) c p seen hf (by omega)

theorem walkC_dnil (p : Path) (seen : List Path) :
    walkC p seen FTree.dnil = ([], seen) := by
  rw [walkC, walkF_dnil]

theorem walkC_file (p : Path) (seen : List Path) (pc : Parsed) :
    walkC p seen (FTree.file pc) = ([], seen) := by
  rw [walkC, walkF_file]

theorem walkC_other (p : Path) (seen : List Path) :
    walkC p seen FTree.other = ([], seen) := by
  rw [walkC, walkF_other]

theorem walkC_cons_manifest {n : ByteStr} {t : FTree} (hm : is_manifest n t = true)
    (p : Path) (seen : List Path) (rest : FTree) :
    walkC p seen (FTree.dcons n t rest) =
      ((match t with | FTree.file c => [(p ++ [n], c)] | _ => []) ++
        (walkC p (p :: seen) rest).1,
       (walkC p (p :: seen) rest).2) := by
  have hr : rest.size < (FTree.dcons n t rest).size := by
    simp only [FTree.size]
    have := size_pos t
    omega
  rw [walkC, walkF_cons_manifest hm, walkC_eq_walkF hr]

theorem walkC_cons_dir_claimed {n : ByteStr} {t : FTree} {p : Path}
    {seen : List Path} (hm : is_manifest n t = false) (hd : isDirNode t = true)
    (hc : seenContains seen (p ++ [n]) = true) (rest : FTree) :
    walkC p seen (FTree.dcons n t rest) = walkC p seen rest := by
  have hr : rest.size < (FTree.dcons n t rest).size := by
    simp only [FTree.size]
    have := size_pos t
    omega
  rw [walkC, walkF_cons_dir_claimed hm hd hc, walkC_eq_walkF hr]

theorem walkC_cons_dir_new {n : ByteStr} {t : FTree} {p : Path}
    {seen : List Path} (hm : is_manifest n t = false) (hd : isDirNode t = true)
    (hc : seenContains seen (p ++ [n]) = false) (rest : FTree) :
    walkC p seen (FTree.dcons n t rest) =
      ((walkC (p ++ [n]) seen (sortEntries t)).1 ++
        (walkC p (walkC (p ++ [n]) seen (sortEntries t)).2 rest).1,
       (walkC p (walkC (p ++ [n]) seen (sortEntries t)).2 rest).2) := by
  have hr : rest.size < (FTree.dcons n t rest).size := by
    simp only [FTree.size]
    have := size_pos t
    omega
  have hs : (sortEntries t).size < (FTree.dcons n t rest).size := by
    have := sortEntries_size t
    have := size_pos rest
    simp only [FTree.size]
    omega
  rw [walkC, walkF_cons_dir_new hm hd hc, walkC_eq_walkF hr, walkC_eq_walkF hs]

theorem walkC_cons_skip {n : ByteStr} {t : FTree} (hm : is_manifest n t = false)
    (hd : isDirNode t = false) (p : Path) (seen : List Path) (rest : FTree) :
    walkC p seen (FTree.dcons n t rest) = walkC p seen rest := by
  have hr : rest.size < (FTree.dcons n t rest).size := by
    simp only [FTree.size]
    have := size_pos t
    omega
  rw [walkC, walkF_cons_skip hm hd, walkC_eq_walkF hr]

theorem is_manifest_file {n : ByteStr} {t : FTree} (h : is_manifest n t = true) :
    ∃ c, t = FTree.file c := by
  cases t with
  | file c => exact ⟨c, rfl⟩
  | other => simp [is_manifest] at h
  | dnil => simp [is_manifest] at h
  | dcons m u r => simp [is_manifest] at h

theorem dropLast_append_single (p : Path) (n : ByteStr) :
    (p ++ [n]).dropLast = p := by
  simp

theorem seenContains_iff (seen : List Path) (q : Path) :
    seenContains seen q = true ↔ ∃ k, k ≤ q.length ∧ q.take k ∈ seen := by
  simp only [seenContains, List.any_eq_true, List.mem_range, decide_eq_true_eq]
  constructor
  · rintro ⟨k, hk, s, hs, hseq⟩
    subst hseq
    exact ⟨k, by omega, hs⟩
  · rintro ⟨k, hk, hmem⟩
    exact ⟨k, by omega, q.take k, hmem, rfl⟩

theorem seenContains_child {seen : List Path} {p : Path} (n : ByteStr)
    (h : p ∈ seen) : seenContains seen (p ++ [n]) = true := by
  rw [seenContains_iff]
  refine ⟨p.length, by simp, ?_⟩
  rw [List.take_left]
  exact h

theorem walkC_seen_extend : ∀ N : Nat, ∀ c : FTree, c.size ≤ N →
    ∀ p seen, ∃ pre, (walkC p seen c).2 = pre ++ seen := by
  intro N
  induction N with
  | zero =>
    intro c hc
    exact absurd hc (by have := size_pos c; omega)
  | succ N ih =>
    intro c hc p seen
    cases c with
    | dnil => exact ⟨[], by simp [walkC_dnil]⟩
    | file pc => exact ⟨[], by simp [walkC_file]⟩
    | other => exact ⟨[], by simp [walkC_other]⟩
    | dcons n t rest =>
      have hszc : 1 + t.size + rest.size ≤ N + 1 := by
        simpa [FTree.size] using hc
      have htp := size_pos t
      have hrp := size_pos rest
      have hrest : rest.size ≤ N := by omega
      by_cases hm : is_manifest n t = true
      · rw [walkC_cons_manifest hm]
        obtain ⟨pre, hpre⟩ := ih rest hrest p (p :: seen)
        refine ⟨pre ++ [p], ?_⟩
        rw [hpre]
        simp
      · have hm' : is_manifest n t = false := Bool.not_eq_true _ |>.mp hm
        by_cases hd : isDirNode t = true
        · by_cases hcl : seenContains seen (p ++ [n]) = true
          · rw [walkC_cons_dir_claimed hm' hd hcl]
            exact ih rest hrest p seen
          · have hcl' : seenContains seen (p ++ [n]) = false :=
              Bool.not_eq_true _ |>.mp hcl
            rw [walkC_cons_dir_new hm' hd hcl']
            have hsort : (sortEntries t).size ≤ N := by
              have := sortEntries_size t
              omega
            obtain ⟨pre1, h1⟩ := ih (sortEntries t) hsort (p ++ [n]) seen
            obtain ⟨pre2, h2⟩ := ih rest hrest p (walkC (p ++ [n]) seen (sortEntries t)).2
            refine ⟨pre2 ++ pre1, ?_⟩
            rw [h2, h1, List.append_assoc]
        · have hd' : isDirNode t = false := Bool.not_eq_true _ |>.mp hd
          rw [walkC_cons_skip hm' hd']
          exact ih rest hrest p seen

theorem walkC_out_lead : ∀ N : Nat, ∀ c : FTree, c.size ≤ N →
    ∀ p seen q pc, (q, pc) ∈ (walkC p seen c).1 →
      ∃ m : ByteStr, leadB (p ++ [m]) q = true := by
  intro N
  induction N with
  | zero =>
    intro c hc
    exact absurd hc (by have := size_pos c; omega)
  | succ N ih =>
    intro c hc p seen q pc hmem
    cases c with
    | dnil =>
      rw [walkC_dnil] at hmem
      simp at hmem
    | file pc0 =>
      rw [walkC_file] at hmem
      simp at hmem
    | other =>
      rw [walkC_other] at hmem
      simp at hmem
    | dcons n t rest =>
      have hszc : 1 + t.size + rest.size ≤ N + 1 := by
        simpa [FTree.size] using hc
      have htp := size_pos t
      have hrp := size_pos rest
      have hrest : rest.size ≤ N := by omega
      by_cases hm : is_manifest n t = true
      · obtain ⟨pc0, ht⟩ := is_manifest_file hm
        subst ht
        rw [walkC_cons_manifest hm] at hmem
        simp only [List.singleton_append, List.mem_cons, Prod.mk.injEq] at hmem
        rcases hmem with ⟨hq, -⟩ | hmem
        · exact ⟨n, by rw [← hq]; exact leadB_refl _⟩
        · exact ih rest hrest p (p :: seen) q pc hmem
      · have hm' : is_manifest n t = false := Bool.not_eq_true _ |>.mp hm
        by_cases hd : isDirNode t = true
        · by_cases hcl : seenContains seen (p ++ [n]) = true
          · rw [walkC_cons_dir_claimed hm' hd hcl] at hmem
            exact ih rest hrest p seen q pc hmem
          · have hcl' : seenContains seen (p ++ [n]) = false :=
              Bool.not_eq_true _ |>.mp hcl
            rw [walkC_cons_dir_new hm' hd hcl'] at hmem
            have hsort : (sortEntries t).size ≤ N := by
              have := sortEntries_size t
              omega
            rcases List.mem_append.mp hmem with hmem1 | hmem2
            · obtain ⟨m2, hm2⟩ := ih (sortEntries t) hsort (p ++ [n]) seen q pc hmem1
              exact ⟨n, leadB_trans (leadB_append _ _) hm2⟩
            · exact ih rest hrest p _ q pc hmem2
        · have hd' : isDirNode t = false := Bool.not_eq_true _ |>.mp hd
          rw [walkC_cons_skip hm' hd'] at hmem
          exact ih rest hrest p seen q pc hmem

theorem walkC_out_claimed : ∀ N : Nat, ∀ c : FTree, c.size ≤ N →
    ∀ p seen q pc, (q, pc) ∈ (walkC p seen c).1 →
      q.dropLast ∈ (walkC p seen c).2 := by
  intro N
  induction N with
  | zero =>
    intro c hc
    exact absurd hc (by have := size_pos c; omega)
  | succ N ih =>
    intro c hc p seen q pc hmem
    cases c with
    | dnil =>
      rw [walkC_dnil] at hmem
      simp at hmem
    | file pc0 =>
      rw [walkC_file] at hmem
      simp at hmem
    | other =>
      rw [walkC_other] at hmem
      simp at hmem
    | dcons n t rest =>
      have hszc : 1 + t.size + rest.size ≤ N + 1 := by
        simpa [FTree.size] using hc
      have htp := size_pos t
      have hrp := size_pos rest
      have hrest : rest.size ≤ N := by omega
      by_cases hm : is_manifest n t = true
      · obtain ⟨pc0, ht⟩ := is_manifest_file hm
        subst ht
        have h2eq : (walkC p seen (FTree.dcons n (FTree.file pc0) rest)).2 =
            (walkC p (p :: seen) rest).2 := by
          rw [walkC_cons_manifest hm]
        rw [walkC_cons_manifest hm] at hmem
        simp only [List.singleton_append, List.mem_cons, Prod.mk.injEq] at hmem
        rcases hmem with ⟨hq, -⟩ | hmem
        · obtain ⟨pre, hpre⟩ := walkC_seen_extend rest.size rest (le_refl _) p (p :: seen)
          rw [h2eq, hq, dropLast_append_single, hpre]
          exact List.mem_append_right pre (List.mem_cons_self p seen)
        · rw [h2eq]
          exact ih rest hrest p (p :: seen) q pc hmem
      · have hm' : is_manifest n t = false := Bool.not_eq_true _ |>.mp hm
        by_cases hd : isDirNode t = true
        · by_cases hcl : seenContains seen (p ++ [n]) = true
          · rw [walkC_cons_dir_claimed hm' hd hcl] at hmem ⊢
            exact ih rest hrest p seen q pc hmem
          · have hcl' : seenContains seen (p ++ [n]) = false :=
              Bool.not_eq_true _ |>.mp hcl
            have h2eq : (walkC p seen (FTree.dcons n t rest)).2 =
                (walkC p (walkC (p ++ [n]) seen (sortEntries t)).2 rest).2 := by
              rw [walkC_cons_dir_new hm' hd hcl']
            rw [walkC_cons_dir_new hm' hd hcl'] at hmem
            rw [h2eq]
            have hsort : (sortEntries t).size ≤ N := by
              have := sortEntries_size t
              omega
            rcases List.mem_append.mp hmem with hmem1 | hmem2
            · have hin := ih (sortEntries t) hsort (p ++ [n]) seen q pc hmem1
              obtain ⟨pre, hpre⟩ := walkC_seen_extend rest.size rest (le_refl _) p
                (walkC (p ++ [n]) seen (sortEntries t)).2
              rw [hpre]
              exact List.mem_append_right pre hin
            · exact ih rest hrest p _ q pc hmem2
        · have hd' : isDirNode t = false := Bool.not_eq_true _ |>.mp hd
          rw [walkC_cons_skip hm' hd'] at hmem ⊢
          exact ih rest hrest p seen q pc hmem

theorem walkC_claimed_no_out : ∀ N : Nat, ∀ c : FTree, c.size ≤ N →
    ∀ p seen, hasManifestChild c = false → p ∈ seen →
      walkC p seen c = ([], seen) := by
  intro N
  induction N with
  | zero =>
    intro c hc
    exact absurd hc (by have := size_pos c; omega)
  | succ N ih =>
    intro c hc p seen hman hp
    cases c with
    | dnil => rw [walkC_dnil]
    | file pc0 => rw [walkC_file]
    | other => rw [walkC_other]
    | dcons n t rest =>
      have hszc : 1 + t.size + rest.size ≤ N + 1 := by
        simpa [FTree.size] using hc
      have htp := size_pos t
      have hrp := size_pos rest
      have hrest : rest.size ≤ N := by omega
      have hparts : is_manifest n t = false ∧ hasManifestChild rest = false := by
        simpa [hasManifestChild, Bool.or_eq_false_iff] using hman
      by_cases hd : isDirNode t = true
      · rw [walkC_cons_dir_claimed hparts.1 hd (seenContains_child n hp)]
        exact ih rest hrest p seen hparts.2 hp
      · have hd' : isDirNode t = false := Bool.not_eq_true _ |>.mp hd
        rw [walkC_cons_skip hparts.1 hd']
        exact ih rest hrest p seen hparts.2 hp

theorem walkC_allManifest_out (c : FTree) : ∀ p seen q pc,
    allManifest c = true → (q, pc) ∈ (walkC p seen c).1 →
      ∃ m : ByteStr, q = p ++ [m] := by
  induction c with
  | dnil =>
    intro p seen q pc _ hmem
    rw [walkC_dnil] at hmem
    simp at hmem
  | file pc0 =>
    intro p seen q pc _ hmem
    rw [walkC_file] at hmem
    simp at hmem
  | other =>
    intro p seen q pc _ hmem
    rw [walkC_other] at hmem
    simp at hmem
  | dcons n t rest iht ihrest =>
    intro p seen q pc hall hmem
    have hparts : is_manifest n t = true ∧ allManifest rest = true := by
      simpa [allManifest, Bool.and_eq_true] using hall
    obtain ⟨pc0, ht⟩ := is_manifest_file hparts.1
    subst ht
    rw [walkC_cons_manifest hparts.1] at hmem
    simp only [List.singleton_append, List.mem_cons, Prod.mk.injEq] at hmem
    rcases hmem with ⟨hq, -⟩ | hmem
    · exact ⟨n, hq⟩
    · exact ihrest p (p :: seen) q pc hparts.2 hmem

theorem walkC_allManifest_claims (c : FTree) : ∀ p seen,
    allManifest c = true → hasManifestChild c = true →
      p ∈ (walkC p seen c).2 := by
  induction c with
  | dnil =>
    intro p seen _ hman
    simp [hasManifestChild] at hman
  | file pc0 =>
    intro p seen _ hman
    simp [hasManifestChild] at hman
  | other =>
    intro p seen _ hman
    simp [hasManifestChild] at hman
  | dcons n t rest iht ihrest =>
    intro p seen hall _
    have hparts : is_manifest n t = true ∧ allManifest rest = true := by
      simpa [allManifest, Bool.and_eq_true] using hall
    rw [walkC_cons_manifest hparts.1]
    obtain ⟨pre, hpre⟩ := walkC_seen_extend rest.size rest (le_refl _) p (p :: seen)
    simp only [hpre]
    exact List.mem_append_right pre (List.mem_cons_self p seen)

theorem walkC_append (a : FTree) : ∀ b p seen, isChain a = true →
    walkC p seen (appendChain a b) =
      ((walkC p seen a).1 ++ (walkC p (walkC p seen a).2 b).1,
       (walkC p (walkC p seen a).2 b).2) := by
  induction a with
  | dnil =>
    intro b p seen _
    have happ : appendChain FTree.dnil b = b := rfl
    rw [happ, walkC_dnil]
    simp
  | file pc0 =>
    intro b p seen hch
    simp [isChain] at hch
  | other =>
    intro b p seen hch
    simp [isChain] at hch
  | dcons n t rest iht ihrest =>
    intro b p seen hch
    have hchr : isChain rest = true := by simpa [isChain] using hch
    have happ : appendChain (FTree.dcons n t rest) b =
        FTree.dcons n t (appendChain rest b) := rfl
    rw [happ]
    by_cases hm : is_manifest n t = true
    · rw [walkC_cons_manifest hm, walkC_cons_manifest hm, ihrest b p (p :: seen) hchr]
      simp [List.append_assoc]
    · have hm' : is_manifest n t = false := Bool.not_eq_true _ |>.mp hm
      by_cases hd : isDirNode t = true
      · by_cases hcl : seenContains seen (p ++ [n]) = true
        · rw [walkC_cons_dir_claimed hm' hd hcl, walkC_cons_dir_claimed hm' hd hcl,
            ihrest b p seen hchr]
        · have hcl' : seenContains seen (p ++ [n]) = false :=
            Bool.not_eq_true _ |>.mp hcl
          rw [walkC_cons_dir_new hm' hd hcl', walkC_cons_dir_new hm' hd hcl',
            ihrest b p (walkC (p ++ [n]) seen (sortEntries t)).2 hchr]
          simp [List.append_assoc]
      · have hd' : isDirNode t = false := Bool.not_eq_true _ |>.mp hd
        rw [walkC_cons_skip hm' hd', walkC_cons_skip hm' hd', ihrest b p seen hchr]

theorem isChain_filterChain (p : ByteStr → FTree → Bool) (c : FTree) :
    isChain (filterChain p c) = true := by
  induction c with
  | dcons m u rest _ ih =>
    rw [filterChain]
    split
    · simpa [isChain] using ih
    · exact ih
  | file pc => rfl
  | other => rfl
  | dnil => rfl

theorem elemOf_filterChain {p : ByteStr → FTree → Bool} {m : ByteStr} {u c : FTree}
    (h : elemOf m u (filterChain p c) = true) : elemOf m u c = true := by
  induction c with
  | dcons a t rest _ ih =>
    rw [filterChain] at h
    by_cases hp : p a t = true
    · rw [if_pos hp] at h
      rw [elemOf] at h ⊢
      rcases Bool.or_eq_true _ _ |>.mp h with hh | hr
      · exact Bool.or_eq_true _ _ |>.mpr (Or.inl hh)
      · exact Bool.or_eq_true _ _ |>.mpr (Or.inr (ih hr))
    · rw [if_neg hp] at h
      rw [elemOf]
      exact Bool.or_eq_true _ _ |>.mpr (Or.inr (ih h))
  | file pc => simp [filterChain, elemOf] at h
  | other => simp [filterChain, elemOf] at h
  | dnil => simp [filterChain, elemOf] at h

theorem elemOf_insertChain {m n : ByteStr} {u t c : FTree}
    (h : elemOf m u (insertChain n t c) = true) :
    (m = n ∧ u = t) ∨ elemOf m u c = true := by
  induction c with
  | dcons a v rest _ ih =>
    rw [insertChain] at h
    split at h
    · rw [elemOf] at h
      rcases Bool.or_eq_true _ _ |>.mp h with hh | hr
      · simp only [Bool.and_eq_true, decide_eq_true_eq] at hh
        exact Or.inl ⟨hh.1.symm, hh.2.symm⟩
      · exact Or.inr hr
    · rw [elemOf] at h
      rcases Bool.or_eq_true _ _ |>.mp h with hh | hr
      · refine Or.inr ?_
        rw [elemOf]
        exact Bool.or_eq_true _ _ |>.mpr (Or.inl hh)
      · rcases ih hr with hl | hc
        · exact Or.inl hl
        · refine Or.inr ?_
          rw [elemOf]
          exact Bool.or_eq_true _ _ |>.mpr (Or.inr hc)
  | file pc =>
    have he : insertChain n t (FTree.file pc) = FTree.dcons n t FTree.dnil := rfl
    rw [he, elemOf] at h
    rcases Bool.or_eq_true _ _ |>.mp h with hh | hr
    · simp only [Bool.and_eq_true, decide_eq_true_eq] at hh
      exact Or.inl ⟨hh.1.symm, hh.2.symm⟩
    · simp [elemOf] at hr
  | other =>
    have he : insertChain n t FTree.other = FTree.dcons n t FTree.dnil := rfl
    rw [he, elemOf] at h
    rcases Bool.or_eq_true _ _ |>.mp h with hh | hr
    · simp only [Bool.and_eq_true, decide_eq_true_eq] at hh
      exact Or.inl ⟨hh.1.symm, hh.2.symm⟩
    · simp [elemOf] at hr
  | dnil =>
    have he : insertChain n t FTree.dnil = FTree.dcons n t FTree.dnil := rfl
    rw [he, elemOf] at h
    rcases Bool.or_eq_true _ _ |>.mp h with hh | hr
    · simp only [Bool.and_eq_true, decide_eq_true_eq] at hh
      exact Or.inl ⟨hh.1.symm, hh.2.symm⟩
    · simp [elemOf] at hr

theorem elemOf_sortChain {m : ByteStr} {u c : FTree}
    (h : elemOf m u (sortChain c) = true) : elemOf m u c = true := by
  induction c with
  | dcons a v rest _ ih =>
    rw [sortChain] at h
    rcases elemOf_insertChain h with ⟨hm, hu⟩ | hc
    · subst hm
      subst hu
      rw [elemOf]
      simp
    · rw [elemOf]
      exact Bool.or_eq_true _ _ |>.mpr (Or.inr (ih hc))
  | file pc => simp [sortChain, elemOf] at h
  | other => simp [sortChain, elemOf] at h
  | dnil => simp [sortChain, elemOf] at h

theorem elemOf_appendChain {m : ByteStr} {u : FTree} {a b : FTree}
    (h : elemOf m u (appendChain a b) = true) :
    elemOf m u a = true ∨ elemOf m u b = true := by
  induction a with
  | dcons x v rest _ ih =>
    have happ : appendChain (FTree.dcons x v rest) b =
        FTree.dcons x v (appendChain rest b) := rfl
    rw [happ, elemOf] at h
    rcases Bool.or_eq_true _ _ |>.mp h with hh | hr
    · refine Or.inl ?_
      rw [elemOf]
      exact Bool.or_eq_true _ _ |>.mpr (Or.inl hh)
    · rcases ih hr with hl | hb
      · refine Or.inl ?_
        rw [elemOf]
        exact Bool.or_eq_true _ _ |>.mpr (Or.inr hl)
      · exact Or.inr hb
  | file pc => exact Or.inr h
  | other => exact Or.inr h
  | dnil => exact Or.inr h

theorem elemOf_sortEntries {m : ByteStr} {u c : FTree}
    (h : elemOf m u (sortEntries c) = true) : elemOf m u c = true := by
  rw [sortEntries] at h
  rcases elemOf_appendChain h with hl | hr
  · exact elemOf_filterChain hl
  · exact elemOf_filterChain (elemOf_sortChain hr)

theorem allManifest_filterChain (c : FTree) :
    allManifest (filterChain is_manifest c) = true := by
  induction c with
  | dcons m u rest _ ih =>
    rw [filterChain]
    split
    · rw [allManifest]
      rename_i hp
      rw [hp, ih]
      rfl
    · exact ih
  | file pc => rfl
  | other => rfl
  | dnil => rfl

theorem hasManifestChild_filter (c : FTree) (h : hasManifestChild c = true) :
    hasManifestChild (filterChain is_manifest c) = true := by
  induction c with
  | dcons m u rest _ ih =>
    rw [hasManifestChild] at h
    rcases Bool.or_eq_true _ _ |>.mp h with hh | hr
    · rw [filterChain, if_pos hh, hasManifestChild, hh]
      rfl
    · rw [filterChain]
      split
      · rw [hasManifestChild, ih hr]
        simp
      · exact ih hr
  | file pc => simp [hasManifestChild] at h
  | other => simp [hasManifestChild] at h
  | dnil => simp [hasManifestChild] at h

theorem hasManifestChild_insertChain (n : ByteStr) (t c : FTree) :
    hasManifestChild (insertChain n t c) =
      (is_manifest n t || hasManifestChild c) := by
  induction c with
  | dcons m u rest _ ih =>
    rw [insertChain]
    split
    · rw [hasManifestChild, hasManifestChild]
    · rw [hasManifestChild, ih, hasManifestChild]
      cases is_manifest n t <;> cases is_manifest m u <;>
        cases hasManifestChild rest <;> rfl
  | file pc => simp [insertChain, hasManifestChild]
  | other => simp [insertChain, hasManifestChild]
  | dnil => simp [insertChain, hasManifestChild]

theorem hasManifestChild_sortChain (c : FTree) :
    hasManifestChild (sortChain c) = hasManifestChild c := by
  induction c with
  | dcons m u rest _ ih =>
    rw [sortChain, hasManifestChild_insertChain, ih, hasManifestChild]
  | file pc => rfl
  | other => rfl
  | dnil => rfl

theorem hasManifestChild_filter_neg (c : FTree) :
    hasManifestChild (filterChain (fun n t => !is_manifest n t) c) = false := by
  induction c with
  | dcons m u rest _ ih =>
    rw [filterChain]
    split
    · rename_i hp
      rw [hasManifestChild, ih]
      simp only [Bool.or_false]
      simpa using hp
    · exact ih
  | file pc => rfl
  | other => rfl
  | dnil => rfl

theorem elemOf_hasName {n : ByteStr} {u c : FTree} (h : elemOf n u c = true) :
    chainHasName c n = true := by
  induction c with
  | dcons m v rest _ ih =>
    rw [elemOf] at h
    rw [chainHasName]
    rcases Bool.or_eq_true _ _ |>.mp h with hh | hr
    · simp only [Bool.and_eq_true, decide_eq_true_eq] at hh
      rw [hh.1]
      simp
    · rw [ih hr]
      simp
  | file pc => simp [elemOf] at h
  | other => simp [elemOf] at h
  | dnil => simp [elemOf] at h

theorem wfChain_rest {n : ByteStr} {t rest : FTree}
    (h : wfChain (FTree.dcons n t rest) = true) :
    chainHasName rest n = false ∧ wfChain rest = true := by
  cases t with
  | file pc =>
    have he : wfChain (FTree.dcons n (FTree.file pc) rest) =
        (!(chainHasName rest n) && true && wfChain rest) := rfl
    rw [he] at h
    simp only [Bool.and_eq_true, Bool.not_eq_true'] at h
    exact ⟨h.1.1, h.2⟩
  | other =>
    have he : wfChain (FTree.dcons n FTree.other rest) =
        (!(chainHasName rest n) && true && wfChain rest) := rfl
    rw [he] at h
    simp only [Bool.and_eq_true, Bool.not_eq_true'] at h
    exact ⟨h.1.1, h.2⟩
  | dnil =>
    have he : wfChain (FTree.dcons n FTree.dnil rest) =
        (!(chainHasName rest n) && wfChain FTree.dnil && wfChain rest) := rfl
    rw [he] at h
    simp only [Bool.and_eq_true, Bool.not_eq_true'] at h
    exact ⟨h.1.1, h.2⟩
  | dcons a b c2 =>
    have he : wfChain (FTree.dcons n (FTree.dcons a b c2) rest) =
        (!(chainHasName rest n) && wfChain (FTree.dcons a b c2) &&
          wfChain rest) := rfl
    rw [he] at h
    simp only [Bool.and_eq_true, Bool.not_eq_true'] at h
    exact ⟨h.1.1, h.2⟩

theorem wfChain_head_dir {n : ByteStr} {t rest : FTree}
    (h : wfChain (FTree.dcons n t rest) = true) (hd : isDirNode t = true) :
    wfChain t = true := by
  cases t with
  | file pc => simp [isDirNode] at hd
  | other => simp [isDirNode] at hd
  | dnil =>
    have he : wfChain (FTree.dcons n FTree.dnil rest) =
        (!(chainHasName rest n) && wfChain FTree.dnil && wfChain rest) := rfl
    rw [he] at h
    simp only [Bool.and_eq_true] at h
    exact h.1.2
  | dcons a b c2 =>
    have he : wfChain (FTree.dcons n (FTree.dcons a b c2) rest) =
        (!(chainHasName rest n) && wfChain (FTree.dcons a b c2) &&
          wfChain rest) := rfl
    rw [he] at h
    simp only [Bool.and_eq_true] at h
    exact h.1.2

theorem wfChain_findEntry_of_elemOf {n : ByteStr} {u c : FTree}
    (hwf : wfChain c = true) (h : elemOf n u c = true) :
    findEntry c n = some u := by
  induction c with
  | dcons m v rest _ ih =>
    obtain ⟨hname, hwfr⟩ := wfChain_rest hwf
    rw [elemOf] at h
    rcases Bool.or_eq_true _ _ |>.mp h with hh | hr
    · simp only [Bool.and_eq_true, decide_eq_true_eq] at hh
      rw [findEntry, if_pos hh.1, hh.2]
    · have hne : ¬(m = n) := by
        intro he
        subst he
        rw [elemOf_hasName hr] at hname
        exact Bool.noConfusion hname
      rw [findEntry, if_neg hne]
      exact ih hwfr hr
  | file pc => simp [elemOf] at h
  | other => simp [elemOf] at h
  | dnil => simp [elemOf] at h

theorem findEntry_elemOf {n : ByteStr} {u c : FTree}
    (h : findEntry c n = some u) : elemOf n u c = true := by
  induction c with
  | dcons m v rest _ ih =>
    rw [findEntry] at h
    by_cases hm : m = n
    · rw [if_pos hm] at h
      have hv := Option.some.inj h
      rw [elemOf]
      simp [hm, hv]
    · rw [if_neg hm] at h
      rw [elemOf]
      exact Bool.or_eq_true _ _ |>.mpr (Or.inr (ih h))
  | file pc => simp [findEntry] at h
  | other => simp [findEntry] at h
  | dnil => simp [findEntry] at h

theorem elemOf_size {n : ByteStr} {u c : FTree} (h : elemOf n u c = true) :
    u.size < c.size := by
  induction c with
  | dcons m v rest _ ih =>
    rw [elemOf] at h
    simp only [FTree.size]
    rcases Bool.or_eq_true _ _ |>.mp h with hh | hr
    · simp only [Bool.and_eq_true, decide_eq_true_eq] at hh
      rw [hh.2]
      have := size_pos rest
      omega
    · have := ih hr
      have := size_pos v
      omega
  | file pc => simp [elemOf] at h
  | other => simp [elemOf] at h
  | dnil => simp [elemOf] at h

theorem wfChain_elem_dir {n : ByteStr} {u c : FTree} (hwf : wfChain c = true)
    (h : elemOf n u c = true) (hd : isDirNode u = true) : wfChain u = true := by
  induction c with
  | dcons m v rest _ ih =>
    rw [elemOf] at h
    rcases Bool.or_eq_true _ _ |>.mp h with hh | hr
    · simp only [Bool.and_eq_true, decide_eq_true_eq] at hh
      rw [← hh.2]
      exact wfChain_head_dir hwf (by rw [hh.2]; exact hd)
    · exact ih (wfChain_rest hwf).2 hr
  | file pc => simp [elemOf] at h
  | other => simp [elemOf] at h
  | dnil => simp [elemOf] at h

theorem leadB_dropLast {d q : Path} (h : leadB d q.dropLast = true) :
    leadB d q = true := by
  rw [List.dropLast_eq_take] at h
  exact leadB_of_take h

theorem lead_single_inj {p : Path} {m n : ByteStr} {q : Path}
    (h1 : leadB (p ++ [m]) q = true) (h2 : leadB (p ++ [n]) q = true) : m = n := by
  rw [leadB_iff] at h1 h2
  have hl1 : (p ++ [m]).length = p.length + 1 := by simp
  have hl2 : (p ++ [n]).length = p.length + 1 := by simp
  rw [hl1] at h1
  rw [hl2] at h2
  have heq : p ++ [m] = p ++ [n] := h1.symm.trans h2
  have := List.append_cancel_left heq
  simpa using this

theorem strictLeadB_self (p : Path) (r : Path) :
    strictLeadB (p ++ r) p = false := by
  cases r with
  | nil =>
    simp [strictLeadB]
  | cons a l =>
    have hlen : p.length < (p ++ (a :: l)).length := by simp
    rw [strictLeadB, not_leadB_of_longer hlen]
    rfl

theorem walkC_no_deep_chain : ∀ l : FTree, ∀ p : Path, ∀ seen : List Path,
    ∀ q : Path, ∀ pc : Parsed, ∀ n : ByteStr, ∀ rel2 : Path, ∀ t0 : FTree,
    (∀ m u, elemOf m u l = true → m = n → u = t0) →
    (∀ p2 seen2 q2 pc2, (q2, pc2) ∈ (walkC p2 seen2 (sortEntries t0)).1 →
      strictLeadB (p2 ++ rel2) q2.dropLast = false) →
    (q, pc) ∈ (walkC p seen l).1 →
    strictLeadB (p ++ (n :: rel2)) q.dropLast = false := by
  intro l
  induction l with
  | dnil =>
    intro p seen q pc n rel2 t0 _ _ hmem
    rw [walkC_dnil] at hmem
    simp at hmem
  | file pc0 =>
    intro p seen q pc n rel2 t0 _ _ hmem
    rw [walkC_file] at hmem
    simp at hmem
  | other =>
    intro p seen q pc n rel2 t0 _ _ hmem
    rw [walkC_other] at hmem
    simp at hmem
  | dcons m u rest _ ih =>
    intro p seen q pc n rel2 t0 huniq hIH hmem
    have huniq_rest : ∀ m2 u2, elemOf m2 u2 rest = true → m2 = n → u2 = t0 := by
      intro m2 u2 h2 hn
      refine huniq m2 u2 ?_ hn
      rw [elemOf]
      exact Bool.or_eq_true _ _ |>.mpr (Or.inr h2)
    by_cases hm : is_manifest m u = true
    · obtain ⟨pc0, hu⟩ := is_manifest_file hm
      subst hu
      rw [walkC_cons_manifest hm] at hmem
      simp only [List.singleton_append, List.mem_cons, Prod.mk.injEq] at hmem
      rcases hmem with ⟨hq, -⟩ | hmem
      · rw [hq, dropLast_append_single]
        exact strictLeadB_self p (n :: rel2)
      · exact ih p (p :: seen) q pc n rel2 t0 huniq_rest hIH hmem
    · have hm' : is_manifest m u = false := Bool.not_eq_true _ |>.mp hm
      by_cases hd : isDirNode u = true
      · by_cases hcl : seenContains seen (p ++ [m]) = true
        · rw [walkC_cons_dir_claimed hm' hd hcl] at hmem
          exact ih p seen q pc n rel2 t0 huniq_rest hIH hmem
        · have hcl' : seenContains seen (p ++ [m]) = false :=
            Bool.not_eq_true _ |>.mp hcl
          rw [walkC_cons_dir_new hm' hd hcl'] at hmem
          rcases List.mem_append.mp hmem with hmem1 | hmem2
          · by_cases hmn : m = n
            · subst hmn
              have hu : u = t0 := by
                refine huniq m u ?_ rfl
                rw [elemOf]
                simp
              subst hu
              have hres := hIH (p ++ [m]) seen q pc hmem1
              have hconv : p ++ (m :: rel2) = (p ++ [m]) ++ rel2 := by simp
              rw [hconv]
              exact hres
            · obtain ⟨m2, hm2⟩ := walkC_out_lead (sortEntries u).size
                (sortEntries u) (le_refl _) (p ++ [m]) seen q pc hmem1
              have hlm : leadB (p ++ [m]) q = true :=
                leadB_trans (leadB_append _ _) hm2
              by_cases hstrict : strictLeadB (p ++ (n :: rel2)) q.dropLast = true
              · obtain ⟨hlq, -⟩ := strictLeadB_parts hstrict
                have hlq2 : leadB (p ++ (n :: rel2)) q = true := leadB_dropLast hlq
                have hln : leadB (p ++ [n]) q = true := by
                  have h0 : leadB (p ++ [n]) (p ++ (n :: rel2)) = true := by
                    have hconv : p ++ (n :: rel2) = (p ++ [n]) ++ rel2 := by simp
                    rw [hconv]
                    exact leadB_append _ _
                  exact leadB_trans h0 hlq2
                exact absurd (lead_single_inj hlm hln) hmn
              · exact Bool.not_eq_true _ |>.mp hstrict
          · exact ih p (walkC (p ++ [m]) seen (sortEntries u)).2 q pc n rel2 t0
              huniq_rest hIH hmem2
      · have hd' : isDirNode u = false := Bool.not_eq_true _ |>.mp hd
        rw [walkC_cons_skip hm' hd'] at hmem
        exact ih p seen q pc n rel2 t0 huniq_rest hIH hmem

theorem walkC_no_deep : ∀ N : Nat, ∀ c : FTree, c.size ≤ N →
    ∀ rel : Path, ∀ csD : FTree, ∀ p : Path, ∀ seen : List Path,
    ∀ q : Path, ∀ pc : Parsed,
    wfChain c = true → dirAt c rel = some csD → hasManifestChild csD = true →
    (q, pc) ∈ (walkC p seen (sortEntries c)).1 →
    strictLeadB (p ++ rel) q.dropLast = false := by
  intro N
  induction N with
  | zero =>
    intro c hc
    exact absurd hc (by have := size_pos c; omega)
  | succ N ih =>
    intro c hc rel csD p seen q pc hwf hdir hman hmem
    cases rel with
    | nil =>
      have hcsD : csD = c := by
        rw [dirAt] at hdir
        exact (Option.some.inj hdir).symm
      rw [hcsD] at hman
      have hchain := isChain_filterChain is_manifest c
      rw [sortEntries, walkC_append (filterChain is_manifest c) _ p seen hchain]
        at hmem
      rcases List.mem_append.mp hmem with h1 | h2
      · obtain ⟨m, hq⟩ := walkC_allManifest_out (filterChain is_manifest c) p seen
          q pc (allManifest_filterChain c) h1
        rw [hq, dropLast_append_single]
        exact strictLeadB_self p []
      · have hp_claims : p ∈ (walkC p seen (filterChain is_manifest c)).2 :=
          walkC_allManifest_claims _ p seen (allManifest_filterChain c)
            (hasManifestChild_filter c hman)
        have hosman : hasManifestChild
            (sortChain (filterChain (fun n t => !is_manifest n t) c)) = false := by
          rw [hasManifestChild_sortChain]
          exact hasManifestChild_filter_neg c
        rw [walkC_claimed_no_out
          (sortChain (filterChain (fun n t => !is_manifest n t) c)).size
          (sortChain (filterChain (fun n t => !is_manifest n t) c)) (le_refl _)
          p (walkC p seen (filterChain is_manifest c)).2 hosman hp_claims] at h2
        simp at h2
    | cons n rel2 =>
      rw [dirAt] at hdir
      cases hfe : findEntry c n with
      | none =>
        simp only [hfe] at hdir
        exact Option.noConfusion hdir
      | some t0 =>
        simp only [hfe] at hdir
        by_cases hdn : isDirNode t0 = true
        · rw [if_pos hdn] at hdir
          have helem := findEntry_elemOf hfe
          have hwft0 : wfChain t0 = true := wfChain_elem_dir hwf helem hdn
          have hsz : t0.size < c.size := elemOf_size helem
          have hIH : ∀ p2 seen2 q2 pc2,
              (q2, pc2) ∈ (walkC p2 seen2 (sortEntries t0)).1 →
              strictLeadB (p2 ++ rel2) q2.dropLast = false :=
            fun p2 seen2 q2 pc2 hm2 =>
              ih t0 (by omega) rel2 csD p2 seen2 q2 pc2 hwft0 hdir hman hm2
          have huniq : ∀ m u, elemOf m u (sortEntries c) = true → m = n →
              u = t0 := by
            intro m u hel hmn
            subst hmn
            have hel2 := elemOf_sortEntries hel
            have hfe2 := wfChain_findEntry_of_elemOf hwf hel2
            rw [hfe] at hfe2
            exact (Option.some.inj hfe2.symm)
          exact walkC_no_deep_chain (sortEntries c) p seen q pc n rel2 t0
            huniq hIH hmem
        · rw [if_neg hdn] at hdir
          exact absurd hdir (by simp)

theorem elemOf_manifest_hasChild {n : ByteStr} {t c : FTree}
    (h : elemOf n t c = true) (hm : is_manifest n t = true) :
    hasManifestChild c = true := by
  induction c with
  | dcons m v rest _ ih =>
    rw [elemOf] at h
    rw [hasManifestChild]
    rcases Bool.or_eq_true _ _ |>.mp h with hh | hr
    · simp only [Bool.and_eq_true, decide_eq_true_eq] at hh
      rw [hh.1, hh.2, hm]
      rfl
    · rw [ih hr]
      simp
  | file pc => simp [elemOf] at h
  | other => simp [elemOf] at h
  | dnil => simp [elemOf] at h

theorem walkC_sound_chain (l : FTree) : ∀ c : FTree, ∀ p : Path,
    ∀ seen : List Path, ∀ q : Path, ∀ pc : Parsed,
    wfChain c = true →
    (∀ m u, elemOf m u l = true → elemOf m u c = true) →
    (∀ m u, elemOf m u c = true → isDirNode u = true → wfChain u = true →
      ∀ p2 seen2 q2 pc2, (q2, pc2) ∈ (walkC p2 seen2 (sortEntries u)).1 →
      ∃ rel csD, q2.dropLast = p2 ++ rel ∧ dirAt u rel = some csD ∧
        hasManifestChild csD = true) →
    (q, pc) ∈ (walkC p seen l).1 →
    ∃ rel csD, q.dropLast = p ++ rel ∧ dirAt c rel = some csD ∧
      hasManifestChild csD = true := by
  induction l with
  | dnil =>
    intro c p seen q pc _ _ _ hmem
    rw [walkC_dnil] at hmem
    simp at hmem
  | file pc0 =>
    intro c p seen q pc _ _ _ hmem
    rw [walkC_file] at hmem
    simp at hmem
  | other =>
    intro c p seen q pc _ _ _ hmem
    rw [walkC_other] at hmem
    simp at hmem
  | dcons m u rest _ ih =>
    intro c p seen q pc hwf hsub hrec hmem
    have hsub_rest : ∀ m2 u2, elemOf m2 u2 rest = true → elemOf m2 u2 c = true := by
      intro m2 u2 h2
      refine hsub m2 u2 ?_
      rw [elemOf]
      exact Bool.or_eq_true _ _ |>.mpr (Or.inr h2)
    have hhead : elemOf m u (FTree.dcons m u rest) = true := by
      rw [elemOf]
      simp
    by_cases hm : is_manifest m u = true
    · obtain ⟨pc0, hu⟩ := is_manifest_file hm
      subst hu
      rw [walkC_cons_manifest hm] at hmem
      simp only [List.singleton_append, List.mem_cons, Prod.mk.injEq] at hmem
      rcases hmem with ⟨hq, -⟩ | hmem
      · refine ⟨[], c, ?_, rfl, ?_⟩
        · rw [hq, dropLast_append_single, List.append_nil]
        · exact elemOf_manifest_hasChild (hsub m (FTree.file pc0) hhead) hm
      · exact ih c p (p :: seen) q pc hwf hsub_rest hrec hmem
    · have hm' : is_manifest m u = false := Bool.not_eq_true _ |>.mp hm
      by_cases hd : isDirNode u = true
      · by_cases hcl : seenContains seen (p ++ [m]) = true
        · rw [walkC_cons_dir_claimed hm' hd hcl] at hmem
          exact ih c p seen q pc hwf hsub_rest hrec hmem
        · have hcl' : seenContains seen (p ++ [m]) = false :=
            Bool.not_eq_true _ |>.mp hcl
          rw [walkC_cons_dir_new hm' hd hcl'] at hmem
          rcases List.mem_append.mp hmem with hmem1 | hmem2
          · have helemc := hsub m u hhead
            have hwfu : wfChain u = true := wfChain_elem_dir hwf helemc hd
            obtain ⟨rel2, csD, hdrop, hdir2, hman2⟩ :=
              hrec m u helemc hd hwfu (p ++ [m]) seen q pc hmem1
            refine ⟨m :: rel2, csD, ?_, ?_, hman2⟩
            · rw [hdrop]
              simp
            · rw [dirAt, wfChain_findEntry_of_elemOf hwf helemc]
              simp only [if_pos hd]
              exact hdir2
          · exact ih c p (walkC (p ++ [m]) seen (sortEntries u)).2 q pc hwf
              hsub_rest hrec hmem2
      · have hd' : isDirNode u = false := Bool.not_eq_true _ |>.mp hd
        rw [walkC_cons_skip hm' hd'] at hmem
        exact ih c p seen q pc hwf hsub_rest hrec hmem

theorem walkC_sound : ∀ N : Nat, ∀ c : FTree, c.size ≤ N → wfChain c = true →
    ∀ p seen q pc, (q, pc) ∈ (walkC p seen (sortEntries c)).1 →
    ∃ rel csD, q.dropLast = p ++ rel ∧ dirAt c rel = some csD ∧
      hasManifestChild csD = true := by
  intro N
  induction N with
  | zero =>
    intro c hc
    exact absurd hc (by have := size_pos c; omega)
  | succ N ih =>
    intro c hc hwf p seen q pc hmem
    refine walkC_sound_chain (sortEntries c) c p seen q pc hwf
      (fun m u h => elemOf_sortEntries h) ?_ hmem
    intro m u helem hd hwfu p2 seen2 q2 pc2 hm2
    have hsz := elemOf_size helem
    exact ih u (by omega) hwfu p2 seen2 q2 pc2 hm2

/-! ## Claims about the manifest scan: C4, C8, C9 -/

/-- Claim C8 (confirmed): an entry is treated as a manifest exactly when it
is a regular file whose name is byte-for-byte `Cargo.toml` or `cargo.toml`;
every other name or casing, and every non-file entry, is rejected. -/
theorem is_manifest_characterization (n : ByteStr) (t : FTree) :
    is_manifest n t = true ↔
      (∃ c, t = FTree.file c) ∧ (n = cargoTomlTitle ∨ n = cargoTomlLower) := by
  cases t with
  | file c => simp [is_manifest]
  | other => simp [is_manifest]
  | dnil => simp [is_manifest]
  | dcons a b r => simp [is_manifest]

/-- Claim C4 (confirmed): the scan reports at most one manifest layer per
manifest-bearing subtree — whenever a directory reachable at the relative
path `rel` directly contains a manifest, no reported manifest path lies in a
directory strictly beneath it — and on the tree with manifests at `a/b`,
`b`, `b/c/d` and `c/d` the enumeration yields exactly the manifests at
`a/b`, `b` and `c/d`. -/
theorem top_level_manifests_prune :
    (∀ rootPath c rel csD q pc, wfChain c = true → dirAt c rel = some csD →
      hasManifestChild csD = true → (q, pc) ∈ top_level_manifests rootPath c →
      strictLeadB (rootPath ++ rel) q.dropLast = false) ∧
    top_level_manifests [] exampleTree =
      [([[97], [98], cargoTomlTitle], fooManifest),
       ([[98], cargoTomlTitle], fooManifest),
       ([[99], [100], cargoTomlTitle], fooManifest)] := by
  constructor
  · intro rootPath c rel csD q pc hwf hdir hman hmem
    exact walkC_no_deep c.size c (le_refl _) rel csD rootPath [] q pc hwf hdir
      hman hmem
  · decide

/-- Claim C9 (confirmed): a manifest that fails to open, read or parse
contributes an error item at its own position while the rest of the
sequence is unaffected (same length, every successful manifest still
yields its `CrateVersion`), its parent directory is recorded in the final
claimed set, and no manifest strictly beneath that parent is surfaced. -/
theorem iter_crate_versions_error_isolated (rootPath : Path) (c : FTree)
    (q : Path) (e : VaultError)
    (hwf : wfChain c = true)
    (hmem : (q, Except.error e) ∈ top_level_manifests rootPath c) :
    (iter_crate_versions rootPath c).length =
      (top_level_manifests rootPath c).length ∧
    Except.error e ∈ iter_crate_versions rootPath c ∧
    (∀ q2 m2, (q2, Except.ok m2) ∈ top_level_manifests rootPath c →
      Except.ok (CrateVersion.mk m2.1 m2.2 q2) ∈ iter_crate_versions rootPath c) ∧
    q.dropLast ∈ (walkScan rootPath c).2 ∧
    (∀ q2 pc2, (q2, pc2) ∈ top_level_manifests rootPath c →
      strictLeadB q.dropLast q2.dropLast = false) := by
  refine ⟨by simp [iter_crate_versions], ?_, ?_, ?_, ?_⟩
  · rw [iter_crate_versions]
    exact List.mem_map.mpr ⟨(q, Except.error e), hmem, rfl⟩
  · intro q2 m2 h2
    rw [iter_crate_versions]
    exact List.mem_map.mpr ⟨(q2, Except.ok m2), h2, rfl⟩
  · exact walkC_out_claimed (sortEntries c).size (sortEntries c) (le_refl _)
      rootPath [] q (Except.error e) hmem
  · intro q2 pc2 h2
    obtain ⟨rel, csD, hdrop, hdir, hman⟩ := walkC_sound c.size c (le_refl _) hwf
      rootPath [] q (Except.error e) hmem
    rw [hdrop]
    exact walkC_no_deep c.size c (le_refl _) rel csD rootPath [] q2 pc2 hwf hdir
      hman h2

/-- Witness for `iter_crate_versions_error_isolated`: the malformed manifest
at `b` of `badTree` yields an error item, its parent is claimed, and the
sequence length is preserved. -/
theorem iter_crate_versions_error_isolated_witness :
    wfChain badTree = true ∧
    (iter_crate_versions [] badTree).length =
      (top_level_manifests [] badTree).length ∧
    ([[98], cargoTomlTitle] : Path).dropLast ∈ (walkScan [] badTree).2 :=
  ⟨by decide,
    (iter_crate_versions_error_isolated [] badTree [[98], cargoTomlTitle]
      (VaultError.manifestParse [[98], cargoTomlTitle]) (by decide) (by decide)).1,
    (iter_crate_versions_error_isolated [] badTree [[98], cargoTomlTitle]
      (VaultError.manifestParse [[98], cargoTomlTitle]) (by decide)
      (by decide)).2.2.2.1⟩

end Librarian
